import Mathlib

/-!
Shallow embedding of the core of the `unicode-info` crate (a generator of
compact Unicode lookup structures), together with proofs checking the
crate's specification against the code.

Rust `u32`/`u16`/`usize` values are embedded as `Nat` with explicit
`% 2 ^ w` at the points where the source performs a wrapping conversion or
wrapping arithmetic.  Fallible code (assertions, `expect`, out-of-bounds
slicing, checked arithmetic) is embedded in the `Option` monad: `none`
models an aborted generation run.
-/

namespace UnicodeInfo

/-! ## types.rs -/

/-- `types::NumericType`: an enum denoting a Rust numeric type. -/
inductive NumericType where
  | U8
  | U16
  | U32
deriving DecidableEq, Repr

/-! ## table.rs -/

/-- `u32::MAX` as a natural number. -/
def U32_MAX : Nat := 2 ^ 32 - 1

/-- `usize::MAX` (64-bit) as a natural number. -/
def USIZE_MAX : Nat := 2 ^ 64 - 1

/-- `table::TableSplit`: two index vectors, their element types, and the
shift of the two-level page table computed by `split_table`. -/
structure TableSplit where
  index1 : List Nat
  index1_elem_type : NumericType
  index2 : List Nat
  index2_elem_type : NumericType
  shift : Nat
deriving DecidableEq, Repr

/-- `table::get_element_type`: the narrowest type holding every value of
`data`.  `none` models the `assert!(data.len() > 0)` failure and the
`assert!`/`panic!` on values exceeding `u32::MAX`. -/
def get_element_type (data : List Nat) : Option NumericType :=
  if data.length = 0 then none
  else
    let max_data := data.foldl (fun mx v => max mx v) 0
    if U32_MAX < max_data then none
    else if max_data ≤ 255 then some NumericType.U8
    else if max_data ≤ 65535 then some NumericType.U16
    else some NumericType.U32

/-- `table::get_size`: byte width of a `NumericType`. -/
def get_size : NumericType → Nat
  | NumericType.U8 => 1
  | NumericType.U16 => 2
  | NumericType.U32 => 4

/-- Rust `usize::next_power_of_two` (`0` and `1` both map to `1`). -/
def next_power_of_two (n : Nat) : Nat := 2 ^ Nat.clog 2 n

/-- Rust `u[size]::trailing_zeros`, for a 64-bit value (`0` has 64 of
them; `split_table` only ever applies this to a power of two). -/
def trailing_zeros (n : Nat) : Nat :=
  if n = 0 then 64
  else if n % 2 = 1 then 0
  else 1 + trailing_zeros (n / 2)
termination_by n
decreasing_by exact Nat.div_lt_self (Nat.pos_of_ne_zero (by assumption)) one_lt_two

/-- `table::compute_maximum_shift`:
`t.len().next_power_of_two().trailing_zeros() - 1`.  The subtraction is a
checked (debug-build) `u32` subtraction: `none` models the overflow panic
when the minuend is `0` (which happens exactly for `t.len() ≤ 1`). -/
def compute_maximum_shift (t : List Nat) : Option Nat :=
  let z := trailing_zeros (next_power_of_two t.length)
  if z = 0 then none else some (z - 1)

/-- The slicing loop `for i in (0..t.len()).step_by(size)` over
`&t[i..i + size]`: splits `t` into consecutive chunks of exactly `size`
elements.  `none` models the out-of-bounds slice panic when `size` does
not divide `t.len()` (and the `step_by(0)` panic when `size = 0`). -/
def chunkify (size : Nat) (t : List Nat) : Option (List (List Nat)) :=
  if size = 0 then none
  else if t.length = 0 then some []
  else if t.length < size then none
  else (chunkify size (t.drop size)).map (fun rest => t.take size :: rest)
termination_by t.length
decreasing_by
  simp only [List.length_drop]
  omega

/-- `bincache.get(&bin)` on the chunk cache, a value-keyed map. -/
def bin_lookup (bin : List Nat) : List (List Nat × Nat) → Option Nat
  | [] => none
  | (b, i) :: rest => if b = bin then some i else bin_lookup bin rest

/-- The body of `split_table`'s chunk loop: scan the chunks left to right,
carrying the `bincache`, `index1` and `index2`.  On a cache miss the chunk
is appended to `index2` and its starting offset (as `u32`, hence the
`% 2 ^ 32`) is cached; the cached offset, downshifted, is pushed onto
`index1`. -/
def scan_chunks (shift : Nat) :
    List (List Nat) → List (List Nat × Nat) → List Nat → List Nat →
    List Nat × List Nat
  | [], _cache, index1, index2 => (index1, index2)
  | bin :: rest, cache, index1, index2 =>
    match bin_lookup bin cache with
    | none =>
      let index := index2.length % 2 ^ 32
      scan_chunks shift rest ((bin, index) :: cache)
        (index1 ++ [index >>> shift]) (index2 ++ bin)
    | some index =>
      scan_chunks shift rest cache (index1 ++ [index >>> shift]) index2

/-- One iteration of `split_table`'s candidate loop at a given shift:
chunk `t`, scan the chunks, compute element types and the total byte
cost.  `none` models any panic inside the iteration. -/
def candidate (t : List Nat) (shift : Nat) : Option (TableSplit × Nat) := do
  let chunks ← chunkify (2 ^ shift) t
  let (index1, index2) := scan_chunks shift chunks [] [] []
  let index1_elem_type ← get_element_type index1
  let index2_elem_type ← get_element_type index2
  let index1_size := get_size index1_elem_type * index1.length
  let index2_size := get_size index2_elem_type * index2.length
  let bytes := index1_size + index2_size
  pure (TableSplit.mk index1 index1_elem_type index2 index2_elem_type shift,
        bytes)

/-- The initializer of `best` in `split_table` ("immediately
overwritten"). -/
def initial_best : TableSplit :=
  TableSplit.mk [] NumericType.U8 [] NumericType.U8 0

/-- `split_table`'s candidate loop, carrying `(best_bytes, best)`. -/
def run_shifts (t : List Nat) :
    List Nat → Nat × TableSplit → Option (Nat × TableSplit)
  | [], best => some best
  | s :: rest, best => do
    let (cand, bytes) ← candidate t s
    run_shifts t rest (if bytes < best.1 then (bytes, cand) else best)

/-- `table::split_table`: the best two-level page-table splitting of `t`.
`none` models an aborted run (assertion failure or panic anywhere in the
computation).  The trailing `get_element_type t` models the
`get_element_size(&original_table)` evaluation inside
`dump_best_split`. -/
def split_table (t : List Nat) : Option TableSplit :=
  if U32_MAX < t.length then none
  else do
    let max_shift ← compute_maximum_shift t
    let (_best_bytes, best) ←
      run_shifts t (List.range (max_shift + 1)) (USIZE_MAX, initial_best)
    let _ ← get_element_type t
    pure best

/-- `split_cost`: the total byte cost `|index1| * sizeof(index1_elem_type)
+ |index2| * sizeof(index2_elem_type)` of a `TableSplit`. -/
def split_cost (s : TableSplit) : Nat :=
  get_size s.index1_elem_type * s.index1.length +
    get_size s.index2_elem_type * s.index2.length

/-- The recovery law of a `TableSplit` over the original vector `t`: for
every valid index `i`, the two-level lookup index is in bounds and
returns `t[i]`. -/
def recovery_law (t : List Nat) (s : TableSplit) : Prop :=
  ∀ i, i < t.length →
    (s.index1.getD (i >>> s.shift) 0) <<< s.shift + (i &&& (2 ^ s.shift - 1))
        < s.index2.length ∧
      t.getD i 0 =
        s.index2.getD
          ((s.index1.getD (i >>> s.shift) 0) <<< s.shift +
            (i &&& (2 ^ s.shift - 1))) 0

/-- Invariant satisfied by every `bincache` entry during the chunk
scan: the cached offset is chunk-aligned, in bounds, and `index2` holds
the chunk's contents there. -/
def cache_ok (size : Nat) (index2 : List Nat) (p : List Nat × Nat) : Prop :=
  size ∣ p.2 ∧ p.2 + size ≤ index2.length ∧ (index2.drop p.2).take size = p.1

/-! ## constants.rs -/

/-- `constants::MAX_BMP`. -/
def MAX_BMP : Nat := 0xFFFF

/-- `constants::WHITE_SPACE`: code points matching the ECMAScript
`WhiteSpace` production. -/
def WHITE_SPACE : List Nat := [0x9, 0xB, 0xC, 0x20, 0xA0, 0xFEFF]

/-- `constants::LINE_TERMINATOR`: code points matching the ECMAScript
`LineTerminator` production. -/
def LINE_TERMINATOR : List Nat := [0xA, 0xD, 0x2028, 0x2029]

/-- `constants::COMPATIBILITY_IDENTIFIER_PART`: ZWNJ and ZWJ. -/
def COMPATIBILITY_IDENTIFIER_PART : List Nat := [0x200C, 0x200D]

/-! ## types.rs: Flags -/

/-- `types::FLAG_SPACE`. -/
def FLAG_SPACE : Nat := 1 <<< 0

/-- `types::FLAG_UNICODE_ID_START`. -/
def FLAG_UNICODE_ID_START : Nat := 1 <<< 1

/-- `types::FLAG_UNICODE_ID_CONTINUE_ONLY`. -/
def FLAG_UNICODE_ID_CONTINUE_ONLY : Nat := 1 <<< 2

/-- `types::Flags`: a bit-packed `u8`. -/
structure Flags where
  val : Nat
deriving DecidableEq, Repr

namespace Flags

def is_space (f : Flags) : Bool := f.val &&& FLAG_SPACE != 0

def is_unicode_id_start (f : Flags) : Bool :=
  f.val &&& FLAG_UNICODE_ID_START != 0

def is_unicode_id_continue_only (f : Flags) : Bool :=
  f.val &&& FLAG_UNICODE_ID_CONTINUE_ONLY != 0

/-- `set_space` (`self.0 |= FLAG_SPACE`, returning the updated value). -/
def set_space (f : Flags) : Flags := Flags.mk (f.val ||| FLAG_SPACE)

def set_unicode_id_start (f : Flags) : Flags :=
  Flags.mk (f.val ||| FLAG_UNICODE_ID_START)

def set_unicode_id_continue_only (f : Flags) : Flags :=
  Flags.mk (f.val ||| FLAG_UNICODE_ID_CONTINUE_ONLY)

end Flags

/-- `types::MappedCodePoint`. -/
structure MappedCodePoint where
  lower : Nat
  upper : Nat
  flags : Flags
deriving DecidableEq, Repr

/-! ## code_point_table.rs: data model -/

/-- `code_point_table::CodePointInfo` (strings are embedded as
`List Char`). -/
structure CodePointInfo where
  name : List Char
  category : List Char
  «alias» : List Char
  uppercase : Nat
  lowercase : Nat
deriving DecidableEq, Repr

/-- `code_point_table::CodePoint`: code point info together with the
code. -/
structure CodePoint where
  code : Nat
  info : CodePointInfo
deriving DecidableEq, Repr

/-! ## derived_core_properties.rs: data model -/

/-- `derived_core_properties::DerivedCorePropertyData`: the two derived
code-point sets (sets are embedded as lists, membership-wise). -/
structure DerivedCorePropertyData where
  id_start : List Nat
  id_continue : List Nat

/-! ## bmp.rs -/

/-- `u16::wrapping_sub` on values embedded as `Nat`. -/
def wrapping_sub16 (a b : Nat) : Nat :=
  (a % 2 ^ 16 + 2 ^ 16 - b % 2 ^ 16) % 2 ^ 16

/-- `u16::wrapping_add` on values embedded as `Nat`. -/
def wrapping_add16 (a b : Nat) : Nat := (a % 2 ^ 16 + b % 2 ^ 16) % 2 ^ 16

/-- `bmp::CharacterInfo`: the unit of interning (`upper_delta` and
`lower_delta` are the `CaseDelta` `u16` payloads). -/
structure CharacterInfo where
  upper_delta : Nat
  lower_delta : Nat
  flags : Flags
deriving DecidableEq, Repr

/-- `bmp::CharacterInfo::all_zeroes`. -/
def CharacterInfo.all_zeroes : CharacterInfo :=
  CharacterInfo.mk 0 0 (Flags.mk 0)

/-- `bmp::CharacterInfo::apply`: recover the upper/lower mappings of
`code` by wrapping 16-bit addition (`code as u16` is embedded as
`code % 2 ^ 16`).  `none` models the `assert!(code <= MAX_BMP)`
failure. -/
def CharacterInfo.apply (ci : CharacterInfo) (code : Nat) :
    Option MappedCodePoint :=
  if code ≤ MAX_BMP then
    some (MappedCodePoint.mk (wrapping_add16 code ci.lower_delta)
      (wrapping_add16 code ci.upper_delta) ci.flags)
  else none

/-- `bmp::BMPInfo`. -/
structure BMPInfo where
  table : List CharacterInfo
  index : List Nat
deriving DecidableEq, Repr

/-- `HashMap::get` on a value-keyed map embedded as an association
list. -/
def map_get {α β : Type} [DecidableEq α] (key : α) :
    List (α × β) → Option β
  | [] => none
  | (k, v) :: rest => if k = key then some v else map_get key rest

/-- The body of `generate_bmp_info`'s loop that computes the
`CharacterInfo` for one code point: the deltas from the wrapping `u16`
subtractions and the three flag assignments. -/
def character_info_for (dp : DerivedCorePropertyData) (cp : CodePoint) :
    CharacterInfo :=
  let lower_delta := wrapping_sub16 cp.info.lowercase cp.code
  let upper_delta := wrapping_sub16 cp.info.uppercase cp.code
  let flags0 := Flags.mk 0
  let flags1 :=
    if cp.info.category = "Zs".toList ∨ cp.code ∈ WHITE_SPACE ∨
        cp.code ∈ LINE_TERMINATOR then
      flags0.set_space
    else flags0
  let flags2 :=
    if cp.code ∈ dp.id_start then flags1.set_unicode_id_start
    else if cp.code ∈ dp.id_continue ∨
        cp.code ∈ COMPATIBILITY_IDENTIFIER_PART then
      flags1.set_unicode_id_continue_only
    else flags1
  CharacterInfo.mk upper_delta lower_delta flags2

/-- The interning loop of `generate_bmp_info` over the BMP-filtered code
points, carrying `table`, `index` and the `cache`.  `none` models the
`assert!` failures (non-BMP case mapping of a BMP code point; a cache
miss whose item is nevertheless in `table`).  The `% 2 ^ 32` embeds
`table.len() as u32`. -/
def bmp_loop (dp : DerivedCorePropertyData) :
    List CodePoint → List CharacterInfo → List Nat →
    List (CharacterInfo × Nat) → Option (List CharacterInfo × List Nat)
  | [], table, index, _cache => some (table, index)
  | cp :: rest, table, index, cache =>
    if cp.info.uppercase ≤ MAX_BMP then
      if cp.info.lowercase ≤ MAX_BMP then
        let item := character_info_for dp cp
        match map_get item cache with
        | none =>
          if item ∈ table then none
          else
            let i := table.length % 2 ^ 32
            bmp_loop dp rest (table ++ [item]) (index.set cp.code i)
              ((item, i) :: cache)
        | some i => bmp_loop dp rest table (index.set cp.code i) cache
      else none
    else none

/-- `bmp::generate_bmp_info`: intern a `CharacterInfo` for every BMP code
point of the registry (`code_point_table` stands for the registry's
iteration sequence), seeding `table` and the cache with the all-zero
record. -/
def generate_bmp_info (code_point_table : List CodePoint)
    (derived_properties : DerivedCorePropertyData) : Option BMPInfo :=
  let table := [CharacterInfo.all_zeroes]
  let index := List.replicate (MAX_BMP + 1) 0
  let cache := [(CharacterInfo.all_zeroes, 0)]
  (bmp_loop derived_properties
      (code_point_table.filter (fun cp => cp.code ≤ MAX_BMP))
      table index cache).map
    (fun r => BMPInfo.mk r.1 r.2)

/-! ## Shared reader utilities (strings are embedded as `List Char`) -/

/-- Rust `str::split(char)`: split at every occurrence of `sep`; always
yields at least one (possibly empty) segment. -/
def split_char (sep : Char) : List Char → List (List Char)
  | [] => [[]]
  | c :: rest =>
    if c = sep then [] :: split_char sep rest
    else
      match split_char sep rest with
      | s :: ss => (c :: s) :: ss
      | [] => [[c]]

/-- `line.split('#').nth(0).expect(..)`: the text before the first `'#'`
(splitting always returns at least one segment, so the `expect` cannot
fire). -/
def strip_comment (line : List Char) : List Char :=
  (split_char '#' line).headD []

/-- Strip a literal prefix, returning the remainder on a match. -/
def drop_pre : List Char → List Char → Option (List Char)
  | [], s => some s
  | _ :: _, [] => none
  | p :: ps, c :: cs => if c = p then drop_pre ps cs else none

/-- Worker for `split_seq`.  The fuel argument only makes the recursion
structural: every step consumes at least one character of the input, so
fuel `s.length` never runs out for a nonempty separator. -/
def split_seq_go (sep : List Char) : Nat → List Char → List (List Char)
  | _, [] => [[]]
  | 0, _ :: _ => [[]]
  | fuel + 1, c :: rest =>
    match drop_pre sep (c :: rest) with
    | some suffix => [] :: split_seq_go sep fuel suffix
    | none =>
      match split_seq_go sep fuel rest with
      | s :: ss => (c :: s) :: ss
      | [] => [[c]]

/-- Rust `str::split(&str)` for a nonempty literal separator, splitting
left-to-right at non-overlapping occurrences. -/
def split_seq (sep s : List Char) : List (List Char) :=
  split_seq_go sep s.length s

/-- The numeric value of one hexadecimal digit (`0-9`, `a-f`, `A-F`). -/
def hex_digit (c : Char) : Option Nat :=
  if '0' ≤ c ∧ c ≤ '9' then some (c.toNat - '0'.toNat)
  else if 'a' ≤ c ∧ c ≤ 'f' then some (c.toNat - 'a'.toNat + 10)
  else if 'A' ≤ c ∧ c ≤ 'F' then some (c.toNat - 'A'.toNat + 10)
  else none

/-- Digit-accumulation loop of `uN::from_str_radix(s, 16)`: `none` on a
non-hex character or once the accumulated value exceeds `maxv` (the
target type's maximum, modelling the overflow error). -/
def from_hex_digits (maxv : Nat) : Nat → List Char → Option Nat
  | acc, [] => some acc
  | acc, c :: cs => do
    let d ← hex_digit c
    let acc2 := acc * 16 + d
    if maxv < acc2 then none else from_hex_digits maxv acc2 cs

/-- `uN::from_str_radix(s, 16)` for the unsigned type with maximum
`maxv`: an optional leading `'+'`, then at least one hex digit, value at
most `maxv`. -/
def from_str_radix16 (maxv : Nat) (s : List Char) : Option Nat :=
  let s2 := match s with
    | '+' :: rest => rest
    | _ => s
  if s2 = [] then none else from_hex_digits maxv 0 s2

/-- Rust `str::trim` (ASCII whitespace suffices for these files). -/
def trim (s : List Char) : List Char :=
  ((s.dropWhile Char.isWhitespace).reverse.dropWhile Char.isWhitespace).reverse

/-! ## case_folding.rs: the reader -/

/-- `CaseFoldingParse::next`, iterated to exhaustion over the lines of
`CaseFolding.txt`: keep `(code, mapping)` for status `C`/`S` lines,
silently skip `F`/`T` lines, abort on a wrong field count, a bad hex
field, or any other status. -/
def case_folding_parse : List (List Char) → Option (List (Nat × Nat))
  | [] => some []
  | line :: rest =>
    let l := strip_comment line
    if l = [] then case_folding_parse rest
    else
      let row := split_seq "; ".toList l
      if row.length = 4 then
        if row.getD 1 [] = "C".toList ∨ row.getD 1 [] = "S".toList then do
          let code ← from_str_radix16 U32_MAX (row.getD 0 [])
          let mapping ← from_str_radix16 U32_MAX (row.getD 2 [])
          let tail ← case_folding_parse rest
          pure ((code, mapping) :: tail)
        else if row.getD 1 [] = "F".toList ∨ row.getD 1 [] = "T".toList then
          case_folding_parse rest
        else none
      else none

/-- A line the case-folding reader processes without aborting: empty
after comment-stripping, or four `"; "`-separated fields whose status is
`C`/`S` with parsable hex code and mapping, or status `F`/`T`. -/
def fold_line_ok (line : List Char) : Bool :=
  let l := strip_comment line
  if l = [] then true
  else
    let row := split_seq "; ".toList l
    decide (row.length = 4) &&
      (if row.getD 1 [] = "C".toList ∨ row.getD 1 [] = "S".toList then
        (from_str_radix16 U32_MAX (row.getD 0 [])).isSome &&
          (from_str_radix16 U32_MAX (row.getD 2 [])).isSome
      else
        decide (row.getD 1 [] = "F".toList ∨ row.getD 1 [] = "T".toList))

/-- The `(code, mapping)` pair a line contributes to the reader's output:
`some` exactly for status-`C`/`S` lines (with both hex fields parsing),
`none` for everything else. -/
def fold_line_yield (line : List Char) : Option (Nat × Nat) :=
  let l := strip_comment line
  if l = [] then none
  else
    let row := split_seq "; ".toList l
    if row.getD 1 [] = "C".toList ∨ row.getD 1 [] = "S".toList then
      match from_str_radix16 U32_MAX (row.getD 0 []),
        from_str_radix16 U32_MAX (row.getD 2 []) with
      | some code, some mapping => some (code, mapping)
      | _, _ => none
    else none

/-- A non-comment four-field line whose status is none of `C`, `S`, `F`,
`T`: such a line trips the reader's final `assert!`. -/
def fold_line_bad_status (line : List Char) : Bool :=
  let l := strip_comment line
  decide (l ≠ []) &&
    (let row := split_seq "; ".toList l
     decide (row.length = 4) &&
       !(decide (row.getD 1 [] = "C".toList) ||
         decide (row.getD 1 [] = "S".toList) ||
         decide (row.getD 1 [] = "F".toList) ||
         decide (row.getD 1 [] = "T".toList)))

/-! ## case_folding.rs: process_case_folding -/

/-- `case_folding::CaseFoldingData` (a `Delta` is its `u16` payload). -/
structure CaseFoldingData where
  all_codes_with_equivalents : List (Nat × List Nat)
  bmp_folding_table : List Nat
  bmp_folding_index : List Nat
deriving DecidableEq, Repr

/-- `BTreeMap::insert` on a `Nat`-keyed map embedded as a sorted
association list (keyed replacement, ascending key order). -/
def btree_insert {β : Type} (key : Nat) (v : β) :
    List (Nat × β) → List (Nat × β)
  | [] => [(key, v)]
  | (k, w) :: rest =>
    if key < k then (key, v) :: (k, w) :: rest
    else if key = k then (key, v) :: rest
    else (k, w) :: btree_insert key v rest

/-- `BTreeSet` insertion on a sorted duplicate-free list. -/
def btset_insert (x : Nat) : List Nat → List Nat
  | [] => [x]
  | y :: rest =>
    if x < y then x :: y :: rest
    else if x = y then y :: rest
    else y :: btset_insert x rest

/-- The first loop of `process_case_folding`: build `folding_map`
(`code -> mapping`) and `reverse_folding_map` (`mapping -> [codes]`, each
vector extended by `push` in input order) from the reader's pairs. -/
def build_folding_maps : List (Nat × Nat) → List (Nat × Nat) →
    List (Nat × List Nat) → List (Nat × Nat) × List (Nat × List Nat)
  | [], fm, rm => (fm, rm)
  | (code, mapping) :: rest, fm, rm =>
    build_folding_maps rest (btree_insert code mapping fm)
      (btree_insert mapping ((map_get mapping rm).getD [] ++ [code]) rm)

/-- The equivalents loop of `process_case_folding`: for each code of the
sorted union of both key sets, the forward branch yields the fold target
first and then every other source of that target, and the backward
branch yields the sources.  `none` models the two `expect`s. -/
def equivalents_entries (fm : List (Nat × Nat)) (rm : List (Nat × List Nat)) :
    List Nat → Option (List (Nat × List Nat))
  | [] => some []
  | code :: rest => do
    let equivs ←
      match map_get code fm with
      | some mapping => do
        let inv ← map_get mapping rm
        pure (mapping :: inv.filter (fun c => c ≠ code))
      | none => map_get code rm
    let tail ← equivalents_entries fm rm rest
    pure ((code, equivs) :: tail)

/-- The BMP folding-table loop of `process_case_folding`: intern the
`u16` wrapping delta of every BMP forward fold (`none` models the
`u16::try_from(mapping)` failure and the table-membership `assert!` on a
cache miss; the table is seeded with `Delta(0)` but the cache starts
empty). -/
def bmp_folding_loop : List (Nat × Nat) → List Nat → List Nat →
    List (Nat × Nat) → Option (List Nat × List Nat)
  | [], table, index, _cache => some (table, index)
  | (code, mapping) :: rest, table, index, cache =>
    if code ≤ MAX_BMP then
      if mapping ≤ MAX_BMP then
        let delta := wrapping_sub16 mapping code
        match map_get delta cache with
        | none =>
          if delta ∈ table then none
          else
            let i := table.length % 2 ^ 32
            bmp_folding_loop rest (table ++ [delta]) (index.set code i)
              ((delta, i) :: cache)
        | some i => bmp_folding_loop rest table (index.set code i) cache
      else none
    else none

/-- `case_folding::process_case_folding`, over the `(code, mapping)`
pairs produced by the reader. -/
def process_case_folding (foldings : List (Nat × Nat)) :
    Option CaseFoldingData := do
  let (folding_map, reverse_folding_map) := build_folding_maps foldings [] []
  let all_folding_codes :=
    (folding_map.map Prod.fst ++ reverse_folding_map.map Prod.fst).foldl
      (fun s x => btset_insert x s) []
  let all_codes_with_equivalents ←
    equivalents_entries folding_map reverse_folding_map all_folding_codes
  let bmp ←
    bmp_folding_loop (folding_map.filter (fun p => p.1 ≤ MAX_BMP)) [0]
      (List.replicate (MAX_BMP + 1) 0) []
  pure (CaseFoldingData.mk all_codes_with_equivalents bmp.1 bmp.2)

/-- Modelled from the spec: the `CaseFolding.txt` data file itself is not
among the sources, so the common (`C`) entries of the Greek iota fold
equivalence class named by the specification (S5) are transcribed here —
U+0345, U+0399 and U+1FBE all fold to U+03B9, in the file's ascending
code order. -/
def iota_class_foldings : List (Nat × Nat) :=
  [(0x0345, 0x03B9), (0x0399, 0x03B9), (0x1FBE, 0x03B9)]
/-! ## code_point_table.rs: UnicodeData.txt parsing -/

/-- `to_fields`: split at `';'` and `assert_eq!(fields.len(), 15)`
(`none` models the assertion failure). -/
def to_fields (line : List Char) : Option (List (List Char)) :=
  let fields := split_char ';' line
  if fields.length = 15 then some fields else none

/-- `get_code`: parse field 0 as a hex `u32` (`expect` on failure). -/
def get_code (fields : List (List Char)) : Option Nat :=
  from_str_radix16 U32_MAX (fields.getD 0 [])

/-- `to_case`: an empty case field maps the code to itself. -/
def to_case (case_field : List Char) (code : Nat) : Option Nat :=
  if case_field = [] then some code
  else from_str_radix16 U32_MAX case_field

/-- `decompose_fields`: name, category, alias and the two case
mappings. -/
def decompose_fields (code : Nat) (fields : List (List Char)) :
    Option CodePointInfo := do
  let uppercase ← to_case (fields.getD 12 []) code
  let lowercase ← to_case (fields.getD 13 []) code
  pure (CodePointInfo.mk (fields.getD 1 []) (fields.getD 2 [])
    (fields.getD 10 []) uppercase lowercase)

/-- `info.name.starts_with('<') && info.name.ends_with("First>")`. -/
def is_first_range_name (name : List Char) : Bool :=
  (match name with
    | c :: _ => c = '<'
    | [] => false) &&
    List.isSuffixOf "First>".toList name

/-- `&info.name[1..info.name.len() - 8]`: strip the leading `'<'` and the
trailing `", First>"`.  `none` models the slice panic when the name is
shorter than nine characters. -/
def range_interior_name (name : List Char) : Option (List Char) :=
  if name.length < 9 then none
  else some ((name.drop 1).take (name.length - 9))

/-- Materialize the inclusive code range `code..=last_code`, one
`CodePoint` per code sharing `info`. -/
def range_code_points (code last_code : Nat) (info : CodePointInfo) :
    List CodePoint :=
  if last_code < code then []
  else (List.range (last_code + 1 - code)).map
    (fun k => CodePoint.mk (code + k) info)

/-- `UnicodeDataParse`, iterated to exhaustion over the lines of
`UnicodeData.txt`.  A `".., First>"` record consumes the very next line
(aborting when there is none), takes that line's code as the inclusive
range end, and yields one record per code in the range. -/
def unicode_data_parse : List (List Char) → Option (List CodePoint)
  | [] => some []
  | line :: rest => do
    let fields ← to_fields line
    let code ← get_code fields
    let info ← decompose_fields code fields
    if is_first_range_name info.name then
      match rest with
      | [] => none
      | range_end_line :: rest2 => do
        let range_end_fields ← to_fields range_end_line
        let last_code ← get_code range_end_fields
        let name2 ← range_interior_name info.name
        let info2 := CodePointInfo.mk name2 info.category info.«alias»
          info.uppercase info.lowercase
        let tail ← unicode_data_parse rest2
        pure (range_code_points code last_code info2 ++ tail)
    else do
      let tail ← unicode_data_parse rest
      pure (CodePoint.mk code info :: tail)

/-! ## special_casing.rs -/

/-- `special_casing::SpecialCase`: one raw record. -/
structure SpecialCase where
  code : Nat
  lower : List Nat
  upper : List Nat
  languages : List (List Char)
  contexts : List (List Char)
deriving DecidableEq, Repr

/-- Rust `char::is_lowercase`, restricted to ASCII (every condition
token in `SpecialCasing.txt` is ASCII, where the two notions agree). -/
def char_is_lowercase (c : Char) : Bool := 'a' ≤ c && c ≤ 'z'

/-- `iter().map(..).collect()` over a fallible element parser: the first
failing element aborts. -/
def map_collect {α β : Type} (g : α → Option β) : List α → Option (List β)
  | [] => some []
  | a :: as => do
    let b ← g a
    let bs ← map_collect g as
    pure (b :: bs)

/-- `parse_next_codes`: trim the field; empty means an empty replacement
sequence, otherwise each space-separated token is a hex `u16` (`none`
models the `expect` on a bad or over-wide code). -/
def parse_codes_field (field : List Char) : Option (List Nat) :=
  let f := trim field
  if f = [] then some []
  else map_collect (fun code => from_str_radix16 0xFFFF code)
    (split_char ' ' f)

/-- The condition-list loop: a token starting with a lowercase letter is
a language, anything else is a context; an empty token trips the
`expect("condition")`. -/
def classify_conditions :
    List (List Char) → List (List Char) × List (List Char) →
    Option (List (List Char) × List (List Char))
  | [], acc => some acc
  | cond :: rest, (langs, ctxs) =>
    match cond with
    | [] => none
    | c :: _ =>
      if char_is_lowercase c then
        classify_conditions rest (langs ++ [cond], ctxs)
      else classify_conditions rest (langs, ctxs ++ [cond])

/-- `SpecialCasing::next`, iterated to exhaustion over the lines of
`SpecialCasing.txt`. -/
def special_casing_parse : List (List Char) → Option (List SpecialCase)
  | [] => some []
  | line_with_comment :: rest =>
    let line := strip_comment line_with_comment
    if line = [] then special_casing_parse rest
    else do
      let fields := split_char ';' line
      let code_field ← fields.get? 0
      let code ← from_str_radix16 U32_MAX (trim code_field)
      let lower_field ← fields.get? 1
      let lower ← parse_codes_field lower_field
      let title_field ← fields.get? 2
      let _title ← parse_codes_field title_field
      let upper_field ← fields.get? 3
      let upper ← parse_codes_field upper_field
      let conditions_field ← fields.get? 4
      let conditions := trim conditions_field
      let lcs ←
        if conditions = [] then some ([], [])
        else classify_conditions (split_char ' ' conditions) ([], [])
      let tail ← special_casing_parse rest
      pure (SpecialCase.mk code lower upper lcs.1 lcs.2 :: tail)

/-- `special_casing::SpecialCasingData`: the six mappings (`BTreeMap`s
embedded as association lists; a context is a token string). -/
structure SpecialCasingData where
  unconditional_tolower : List (Nat × List Nat)
  unconditional_toupper : List (Nat × List Nat)
  conditional_tolower : List (Nat × (List Nat × List Char))
  conditional_toupper : List (Nat × (List Nat × List Char))
  lang_conditional_tolower :
    List (List Char × List (Nat × (List Nat × Option (List Char))))
  lang_conditional_toupper :
    List (List Char × List (Nat × (List Nat × Option (List Char))))
deriving DecidableEq, Repr

/-- `BTreeMap::insert` for the string-keyed language maps, embedded as
keyed replacement on an association list (the claims do not depend on
the B-tree's key ordering). -/
def assoc_update {α β : Type} [DecidableEq α] (key : α) (v : β) :
    List (α × β) → List (α × β)
  | [] => [(key, v)]
  | (k, w) :: rest =>
    if k = key then (key, v) :: rest else (k, w) :: assoc_update key v rest

/-- The closure `case_info`: `bmp.table[bmp.index[code as usize] as
usize].apply(code)` (`none` models the two indexing panics and the
`apply` assertion). -/
def case_info (bmp : BMPInfo) (code : Nat) : Option MappedCodePoint := do
  let i ← bmp.index.get? code
  let ci ← bmp.table.get? i
  ci.apply code

/-- The record loop of `process_special_casing`: enforce the BMP and
arity assertions, compare against the default casing from `bmp`, and
dispatch each special side into the matching bucket. -/
def special_casing_loop (bmp : BMPInfo) :
    List SpecialCase → SpecialCasingData → Option SpecialCasingData
  | [], data => some data
  | sc :: rest, data =>
    if sc.code ≤ MAX_BMP then
      if sc.languages.length ≤ 1 then
        if sc.contexts.length ≤ 1 then do
          let mcp ← case_info bmp sc.code
          let has_special_lower :=
            sc.lower.length ≠ 1 ∨ sc.lower.getD 0 0 ≠ mcp.lower
          let has_special_upper :=
            sc.upper.length ≠ 1 ∨ sc.upper.getD 0 0 ≠ mcp.upper
          if sc.code = mcp.lower ∨ sc.lower.length ≠ 1 ∨
              sc.code ≠ sc.lower.getD 0 0 then
            if sc.code = mcp.upper ∨ sc.upper.length ≠ 1 ∨
                sc.code ≠ sc.upper.getD 0 0 then
              match sc.languages.get? 0, sc.contexts.get? 0 with
              | none, none =>
                let d1 :=
                  if has_special_lower then
                    { data with unconditional_tolower :=
                        (btree_insert sc.code sc.lower
                          data.unconditional_tolower) }
                  else data
                let d2 :=
                  if has_special_upper then
                    { d1 with unconditional_toupper :=
                        (btree_insert sc.code sc.upper
                          d1.unconditional_toupper) }
                  else d1
                special_casing_loop bmp rest d2
              | none, some context =>
                let d1 :=
                  if has_special_lower then
                    { data with conditional_tolower :=
                        (btree_insert sc.code (sc.lower, context)
                          data.conditional_tolower) }
                  else data
                let d2 :=
                  if has_special_upper then
                    { d1 with conditional_toupper :=
                        (btree_insert sc.code (sc.upper, context)
                          d1.conditional_toupper) }
                  else d1
                special_casing_loop bmp rest d2
              | some language, context =>
                let d1 :=
                  if has_special_lower then
                    { data with lang_conditional_tolower :=
                        (assoc_update language
                          (btree_insert sc.code (sc.lower, context)
                            ((map_get language
                              data.lang_conditional_tolower).getD []))
                          data.lang_conditional_tolower) }
                  else data
                let d2 :=
                  if has_special_upper then
                    { d1 with lang_conditional_toupper :=
                        (assoc_update language
                          (btree_insert sc.code (sc.upper, context)
                            ((map_get language
                              d1.lang_conditional_toupper).getD []))
                          d1.lang_conditional_toupper) }
                  else d1
                special_casing_loop bmp rest d2
            else none
          else none
        else none
      else none
    else none

/-- `special_casing::process_special_casing` over the parsed records. -/
def process_special_casing (bmp : BMPInfo) (cases : List SpecialCase) :
    Option SpecialCasingData :=
  special_casing_loop bmp cases (SpecialCasingData.mk [] [] [] [] [] [])
/-- Every code point appearing in a `SpecialCasingData` — each bucket key
and each code of each replacement sequence — is a BMP code point. -/
def special_casing_data_bmp_only (data : SpecialCasingData) : Prop :=
  (∀ p ∈ data.unconditional_tolower, p.1 ≤ MAX_BMP ∧
    ∀ x ∈ p.2, x ≤ MAX_BMP) ∧
  (∀ p ∈ data.unconditional_toupper, p.1 ≤ MAX_BMP ∧
    ∀ x ∈ p.2, x ≤ MAX_BMP) ∧
  (∀ p ∈ data.conditional_tolower, p.1 ≤ MAX_BMP ∧
    ∀ x ∈ p.2.1, x ≤ MAX_BMP) ∧
  (∀ p ∈ data.conditional_toupper, p.1 ≤ MAX_BMP ∧
    ∀ x ∈ p.2.1, x ≤ MAX_BMP) ∧
  (∀ q ∈ data.lang_conditional_tolower, ∀ p ∈ q.2, p.1 ≤ MAX_BMP ∧
    ∀ x ∈ p.2.1, x ≤ MAX_BMP) ∧
  (∀ q ∈ data.lang_conditional_toupper, ∀ p ∈ q.2, p.1 ≤ MAX_BMP ∧
    ∀ x ∈ p.2.1, x ≤ MAX_BMP)
/-! ### Auxiliary lemmas about the table splitter -/

lemma trailing_zeros_two_pow (k : Nat) : trailing_zeros (2 ^ k) = k := by
  induction k with
  | zero => rw [trailing_zeros]; norm_num
  | succ k ih =>
    rw [trailing_zeros]
    have h0 : (2 : Nat) ^ (k + 1) ≠ 0 := by positivity
    have h1 : (2 : Nat) ^ (k + 1) % 2 = 0 := by
      simp [pow_succ, Nat.mul_mod_left]
    have h2 : (2 : Nat) ^ (k + 1) / 2 = 2 ^ k := by
      rw [pow_succ]
      exact Nat.mul_div_cancel _ (by norm_num)
    simp [h0, h1, h2, ih]
    omega

lemma get_size_le (ty : NumericType) : get_size ty ≤ 4 := by
  cases ty <;> simp [get_size]

lemma foldl_max_le (b : Nat) :
    ∀ (l : List Nat) (a : Nat), (∀ x ∈ l, x ≤ b) → a ≤ b →
      l.foldl (fun mx v => max mx v) a ≤ b := by
  intro l
  induction l with
  | nil => intro a _ ha; simpa using ha
  | cons x xs ih =>
    intro a hl ha
    simp only [List.foldl_cons]
    exact ih _ (fun y hy => hl y (List.mem_cons_of_mem _ hy))
      (max_le ha (hl x (List.mem_cons_self _ _)))

lemma get_element_type_some (data : List Nat) (hne : data ≠ [])
    (hb : ∀ x ∈ data, x ≤ U32_MAX) :
    ∃ ty, get_element_type data = some ty := by
  have hlen : data.length ≠ 0 := by simpa using hne
  have hmax : data.foldl (fun mx v => max mx v) 0 ≤ U32_MAX :=
    foldl_max_le _ data 0 hb (Nat.zero_le _)
  unfold get_element_type
  simp only [hlen, if_false, Nat.not_lt.mpr hmax, if_neg (Nat.not_lt.mpr hmax)]
  split <;> [exact ⟨_, rfl⟩; skip]
  split <;> exact ⟨_, rfl⟩

lemma chunkify_spec (size : Nat) (hs : 0 < size) :
    ∀ (n : Nat) (t : List Nat), t.length = size * n →
      ∃ cs, chunkify size t = some cs ∧ cs.length = n ∧
        (∀ c ∈ cs, c.length = size) ∧ cs.flatten = t := by
  intro n
  induction n with
  | zero =>
    intro t hlen
    have ht : t = [] := List.length_eq_zero.mp (by simpa using hlen)
    subst ht
    refine ⟨[], ?_, rfl, by simp, rfl⟩
    have hsz : ¬ size = 0 := by omega
    rw [chunkify]
    simp [hsz]
  | succ n ih =>
    intro t hlen
    have hge : size ≤ t.length := by
      rw [hlen]; calc size = size * 1 := (mul_one size).symm
        _ ≤ size * (n + 1) := Nat.mul_le_mul_left _ (by omega)
    have hne : t.length ≠ 0 := by
      intro h; rw [h] at hge; omega
    have hdrop : (t.drop size).length = size * n := by
      simp only [List.length_drop, hlen]
      rw [Nat.mul_succ]; omega
    obtain ⟨cs, hcs, hcslen, hcsuni, hcsjoin⟩ := ih (t.drop size) hdrop
    refine ⟨t.take size :: cs, ?_, by simp [hcslen], ?_, ?_⟩
    · have hsz : ¬ size = 0 := by omega
      rw [chunkify]
      simp [hsz, hne, Nat.not_lt.mpr hge, hcs]
    · intro c hc
      rcases List.mem_cons.mp hc with h | h
      · subst h; simp [List.length_take]; omega
      · exact hcsuni c h
    · simp [List.flatten, hcsjoin]

lemma chunkify_not_dvd (size : Nat) (hs : 0 < size) :
    ∀ (n : Nat) (t : List Nat), t.length ≤ n → t.length ≠ 0 →
      ¬ size ∣ t.length → chunkify size t = none := by
  intro n
  induction n with
  | zero => intro t h h0 _; omega
  | succ n ih =>
    intro t hle h0 hnd
    have hsz : ¬ size = 0 := by omega
    rw [chunkify]
    simp only [hsz, if_false, h0]
    by_cases hlt : t.length < size
    · simp [hlt]
    · have hge : size ≤ t.length := Nat.not_lt.mp hlt
      have h0' : (t.drop size).length ≠ 0 := by
        simp only [List.length_drop]
        intro h
        exact hnd ⟨1, by omega⟩
      have hnd' : ¬ size ∣ (t.drop size).length := by
        simp only [List.length_drop]
        intro ⟨m, hm⟩
        exact hnd ⟨m + 1, by rw [Nat.mul_add, Nat.mul_one]; omega⟩
      have hle' : (t.drop size).length ≤ n := by
        simp only [List.length_drop]; omega
      simp [hlt, ih (t.drop size) hle' h0' hnd']

lemma bin_lookup_mem (bin : List Nat) :
    ∀ (cache : List (List Nat × Nat)) (i : Nat),
      bin_lookup bin cache = some i → (bin, i) ∈ cache := by
  intro cache
  induction cache with
  | nil => intro i h; simp [bin_lookup] at h
  | cons p rest ih =>
    intro i h
    obtain ⟨b, j⟩ := p
    rw [bin_lookup] at h
    by_cases hb : b = bin
    · subst hb
      simp at h
      subst h
      exact List.mem_cons_self _ _
    · simp [hb] at h
      exact List.mem_cons_of_mem _ (ih i h)

lemma scan_chunks_cons_hit (shift : Nat) (bin : List Nat)
    (rest : List (List Nat)) (cache : List (List Nat × Nat))
    (index1 index2 : List Nat) (idx : Nat)
    (hget : bin_lookup bin cache = some idx) :
    scan_chunks shift (bin :: rest) cache index1 index2 =
      scan_chunks shift rest cache (index1 ++ [idx >>> shift]) index2 := by
  rw [scan_chunks, hget]

lemma scan_chunks_cons_miss (shift : Nat) (bin : List Nat)
    (rest : List (List Nat)) (cache : List (List Nat × Nat))
    (index1 index2 : List Nat)
    (hget : bin_lookup bin cache = none) :
    scan_chunks shift (bin :: rest) cache index1 index2 =
      scan_chunks shift rest ((bin, index2.length % 2 ^ 32) :: cache)
        (index1 ++ [(index2.length % 2 ^ 32) >>> shift]) (index2 ++ bin) := by
  rw [scan_chunks, hget]

lemma cache_ok_append (size : Nat) (index2 ext : List Nat) (p : List Nat × Nat)
    (h : cache_ok size index2 p) : cache_ok size (index2 ++ ext) p := by
  obtain ⟨h1, h2, h3⟩ := h
  refine ⟨h1, by simp; omega, ?_⟩
  rw [List.drop_append_of_le_length (by omega),
    List.take_append_of_le_length (by simp; omega), h3]

lemma slice_stable (index2 ext : List Nat) (off size : Nat)
    (h : off + size ≤ index2.length) :
    ((index2 ++ ext).drop off).take size = (index2.drop off).take size := by
  rw [List.drop_append_of_le_length (by omega),
    List.take_append_of_le_length (by simp; omega)]

lemma scan_chunks_spec (shift : Nat) :
    ∀ (chunks : List (List Nat)) (cache : List (List Nat × Nat))
      (index1 index2 : List Nat),
      (∀ c ∈ chunks, c.length = 2 ^ shift) →
      index2.length + (chunks.map List.length).sum ≤ U32_MAX →
      (2 ^ shift) ∣ index2.length →
      (∀ p ∈ cache, cache_ok (2 ^ shift) index2 p) →
      ∃ new1 new2,
        scan_chunks shift chunks cache index1 index2 =
          (index1 ++ new1, index2 ++ new2) ∧
        new1.length = chunks.length ∧
        new2.length ≤ (chunks.map List.length).sum ∧
        (∀ x ∈ new1, x ≤ U32_MAX) ∧
        (∀ x ∈ new2, x ∈ chunks.flatten) ∧
        (∀ m, m < chunks.length →
          ((new1.getD m 0) <<< shift) + 2 ^ shift ≤ (index2 ++ new2).length ∧
          ((index2 ++ new2).drop ((new1.getD m 0) <<< shift)).take (2 ^ shift)
            = chunks.getD m []) := by
  intro chunks
  induction chunks with
  | nil =>
    intro cache index1 index2 _ _ _ _
    exact ⟨[], [], by simp [scan_chunks], rfl, by simp, by simp, by simp,
      fun m hm => absurd hm (by simp)⟩
  | cons bin rest ih =>
    intro cache index1 index2 hc hbound hdvd hcache
    have hbinlen : bin.length = 2 ^ shift := hc bin (List.mem_cons_self _ _)
    have hcrest : ∀ c ∈ rest, c.length = 2 ^ shift :=
      fun c hcm => hc c (List.mem_cons_of_mem _ hcm)
    have hboundsum : index2.length + (bin.length + (rest.map List.length).sum)
        ≤ U32_MAX := by
      simpa using hbound
    cases hget : bin_lookup bin cache with
    | some idx =>
      have hmem := bin_lookup_mem bin cache idx hget
      obtain ⟨hidvd, hib, hislice⟩ := hcache _ hmem
      have hidvd' : (2 ^ shift) ∣ idx := hidvd
      have hib' : idx + 2 ^ shift ≤ index2.length := hib
      have hislice' : (index2.drop idx).take (2 ^ shift) = bin := hislice
      have hbound' : index2.length + (rest.map List.length).sum ≤ U32_MAX := by
        omega
      obtain ⟨new1, new2, heq, hlen1, hlen2, hb1, hb2, hrec⟩ :=
        ih cache (index1 ++ [idx >>> shift]) index2 hcrest hbound' hdvd hcache
      have hoff : (idx >>> shift) <<< shift = idx := by
        rw [Nat.shiftRight_eq_div_pow, Nat.shiftLeft_eq]
        exact Nat.div_mul_cancel hidvd'
      refine ⟨(idx >>> shift) :: new1, new2, ?_, by simp [hlen1], ?_, ?_, ?_, ?_⟩
      · rw [scan_chunks_cons_hit shift bin rest cache index1 index2 idx hget, heq]
        simp
      · simp only [List.map_cons, List.sum_cons]
        omega
      · intro x hx
        rcases List.mem_cons.mp hx with h | h
        · subst h
          have : idx >>> shift ≤ idx := by
            rw [Nat.shiftRight_eq_div_pow]; exact Nat.div_le_self _ _
          omega
        · exact hb1 x h
      · intro x hx
        obtain ⟨c, hcm, hxc⟩ := List.mem_flatten.mp (hb2 x hx)
        exact List.mem_flatten.mpr ⟨c, List.mem_cons_of_mem _ hcm, hxc⟩
      · intro m hm
        cases m with
        | zero =>
          simp only [List.getD_cons_zero, hoff]
          refine ⟨by simp only [List.length_append]; omega, ?_⟩
          rw [slice_stable index2 new2 idx (2 ^ shift) hib', hislice']
        | succ m =>
          have hm' : m < rest.length := by simpa using hm
          obtain ⟨h1, h2⟩ := hrec m hm'
          exact ⟨by simpa using h1, by simpa using h2⟩
    | none =>
      have hlt : index2.length < 2 ^ 32 := by
        have h32 : U32_MAX = 2 ^ 32 - 1 := rfl
        omega
      have hmodeq : index2.length % 2 ^ 32 = index2.length := Nat.mod_eq_of_lt hlt
      have hbound' : (index2 ++ bin).length + (rest.map List.length).sum
          ≤ U32_MAX := by
        simp only [List.length_append]
        omega
      have hdvd' : (2 ^ shift) ∣ (index2 ++ bin).length := by
        simp only [List.length_append, hbinlen]
        exact Nat.dvd_add hdvd dvd_rfl
      have hcache' : ∀ p ∈ (bin, index2.length) :: cache,
          cache_ok (2 ^ shift) (index2 ++ bin) p := by
        intro p hp
        rcases List.mem_cons.mp hp with h | h
        · subst h
          refine ⟨hdvd, by simp only [List.length_append, hbinlen]; omega, ?_⟩
          rw [List.drop_left, List.take_of_length_le (le_of_eq hbinlen)]
        · exact cache_ok_append _ _ _ _ (hcache p h)
      obtain ⟨new1, new2, heq, hlen1, hlen2, hb1, hb2, hrec⟩ :=
        ih ((bin, index2.length) :: cache) (index1 ++ [index2.length >>> shift])
          (index2 ++ bin) hcrest hbound' hdvd' hcache'
      have hoff : (index2.length >>> shift) <<< shift = index2.length := by
        rw [Nat.shiftRight_eq_div_pow, Nat.shiftLeft_eq]
        exact Nat.div_mul_cancel hdvd
      refine ⟨(index2.length >>> shift) :: new1, bin ++ new2, ?_,
        by simp [hlen1], ?_, ?_, ?_, ?_⟩
      · rw [scan_chunks_cons_miss shift bin rest cache index1 index2 hget, hmodeq,
          heq, List.append_assoc]
        simp
      · simp only [List.map_cons, List.sum_cons, List.length_append]
        omega
      · intro x hx
        rcases List.mem_cons.mp hx with h | h
        · subst h
          have : index2.length >>> shift ≤ index2.length := by
            rw [Nat.shiftRight_eq_div_pow]; exact Nat.div_le_self _ _
          omega
        · exact hb1 x h
      · intro x hx
        rcases List.mem_append.mp hx with h | h
        · exact List.mem_flatten.mpr ⟨bin, List.mem_cons_self _ _, h⟩
        · obtain ⟨c, hcm, hxc⟩ := List.mem_flatten.mp (hb2 x h)
          exact List.mem_flatten.mpr ⟨c, List.mem_cons_of_mem _ hcm, hxc⟩
      · intro m hm
        cases m with
        | zero =>
          simp only [List.getD_cons_zero, hoff]
          refine ⟨by simp only [List.length_append, hbinlen]; omega, ?_⟩
          rw [← List.append_assoc,
            slice_stable (index2 ++ bin) new2 index2.length (2 ^ shift)
              (by simp only [List.length_append, hbinlen]; omega),
            List.drop_left, List.take_of_length_le (le_of_eq hbinlen)]
        | succ m =>
          have hm' : m < rest.length := by simpa using hm
          obtain ⟨h1, h2⟩ := hrec m hm'
          rw [List.append_assoc] at h1 h2
          exact ⟨by simpa using h1, by simpa using h2⟩

lemma flatten_getD (size : Nat) (hs : 0 < size) :
    ∀ (cs : List (List Nat)) (i : Nat), (∀ c ∈ cs, c.length = size) →
      i < size * cs.length →
      cs.flatten.getD i 0 = (cs.getD (i / size) []).getD (i % size) 0 := by
  intro cs
  induction cs with
  | nil => intro i _ hi; simp at hi
  | cons c rest ih =>
    intro i huni hi
    have hclen : c.length = size := huni c (List.mem_cons_self _ _)
    have hrest : ∀ d ∈ rest, d.length = size :=
      fun d hd => huni d (List.mem_cons_of_mem _ hd)
    by_cases hlt : i < size
    · have hdiv : i / size = 0 := Nat.div_eq_of_lt hlt
      have hmod : i % size = i := Nat.mod_eq_of_lt hlt
      rw [List.flatten_cons, hdiv, hmod, List.getD_cons_zero,
        List.getD_append _ _ _ _ (by omega)]
    · have hge : size ≤ i := Nat.not_lt.mp hlt
      obtain ⟨j, rfl⟩ : ∃ j, i = size + j := ⟨i - size, by omega⟩
      have hdiv : (size + j) / size = j / size + 1 := by
        rw [Nat.add_comm size j, Nat.add_div_right _ hs]
      have hmod : (size + j) % size = j % size := by
        rw [Nat.add_comm size j, Nat.add_mod_right]
      rw [List.flatten_cons, hdiv, hmod, List.getD_cons_succ,
        List.getD_append_right _ _ _ _ (by omega)]
      have hj : j < size * rest.length := by
        simp only [List.length_cons, Nat.mul_succ] at hi
        omega
      rw [hclen] at *
      have := ih j hrest hj
      simpa using this

lemma candidate_spec (t : List Nat) (shift : Nat) (n : Nat)
    (hlen : t.length = 2 ^ shift * n) (hne : t.length ≠ 0)
    (hbound : t.length ≤ U32_MAX) (helts : ∀ x ∈ t, x ≤ U32_MAX) :
    ∃ s bytes, candidate t shift = some (s, bytes) ∧
      s.shift = shift ∧ bytes = split_cost s ∧
      s.index1.length = n ∧ s.index2.length ≤ t.length ∧
      bytes ≤ 8 * t.length ∧ recovery_law t s := by
  have hsz : 0 < 2 ^ shift := Nat.pos_pow_of_pos _ (by norm_num)
  obtain ⟨cs, hcs, hcslen, hcsuni, hcsflat⟩ := chunkify_spec (2 ^ shift) hsz n t hlen
  have hmass : (cs.map List.length).sum = t.length := by
    rw [← hcsflat]
    exact (List.length_flatten cs).symm
  obtain ⟨new1, new2, hscan, hlen1, hlen2, hb1, hb2, hrec⟩ :=
    scan_chunks_spec shift cs [] [] [] hcsuni
      (by simp [hmass, hbound]) (by simp) (by simp)
  simp only [List.nil_append] at hscan hrec
  have hn0 : n ≠ 0 := by
    intro h; rw [h, Nat.mul_zero] at hlen; exact hne hlen
  have hnew1n : new1.length = n := by rw [hlen1, hcslen]
  have hnew1ne : new1 ≠ [] := by
    intro h
    rw [h] at hnew1n
    simp at hnew1n
    exact hn0 hnew1n.symm
  have hcsne : cs.length ≠ 0 := by rw [hcslen]; exact hn0
  have hnew2ne : new2 ≠ [] := by
    intro h
    obtain ⟨hb, _⟩ := hrec 0 (by omega)
    rw [h] at hb
    simp at hb
  have hnew2b : ∀ x ∈ new2, x ≤ U32_MAX := by
    intro x hx
    exact helts x (hcsflat ▸ hb2 x hx)
  obtain ⟨ty1, hty1⟩ := get_element_type_some new1 hnew1ne hb1
  obtain ⟨ty2, hty2⟩ := get_element_type_some new2 hnew2ne hnew2b
  refine ⟨TableSplit.mk new1 ty1 new2 ty2 shift,
    get_size ty1 * new1.length + get_size ty2 * new2.length, ?_, rfl, rfl,
    ?_, ?_, ?_, ?_⟩
  · unfold candidate
    rw [hcs]
    simp only [Option.bind_eq_bind, Option.some_bind, hscan, hty1, hty2]
    rfl
  · rw [hlen1, hcslen]
  · calc new2.length ≤ (cs.map List.length).sum := hlen2
      _ = t.length := hmass
  · have h1 := get_size_le ty1
    have h2 := get_size_le ty2
    have hn1 : new1.length ≤ t.length := by
      rw [hnew1n, hlen]
      exact Nat.le_mul_of_pos_left _ hsz
    have hn2 : new2.length ≤ t.length := le_trans hlen2 (le_of_eq hmass)
    nlinarith
  · intro i hi
    have hidiv : i / 2 ^ shift < cs.length := by
      rw [hcslen]
      exact Nat.div_lt_of_lt_mul (by rw [← hlen]; exact hi)
    obtain ⟨hoffb, hslice⟩ := hrec (i / 2 ^ shift) hidiv
    have hand : i &&& (2 ^ shift - 1) = i % 2 ^ shift :=
      Nat.and_pow_two_sub_one_eq_mod i shift
    have hshr : i >>> shift = i / 2 ^ shift := Nat.shiftRight_eq_div_pow i shift
    have hmlt : i % 2 ^ shift < 2 ^ shift := Nat.mod_lt _ hsz
    simp only [hand, hshr]
    set off := new1.getD (i / 2 ^ shift) 0 <<< shift with hoffdef
    constructor
    · omega
    · have hidx : t.getD i 0 = (cs.getD (i / 2 ^ shift) []).getD (i % 2 ^ shift) 0 := by
        rw [← hcsflat]
        exact flatten_getD (2 ^ shift) hsz cs i hcsuni
          (by rw [hcslen, ← hlen]; exact hi)
      rw [hidx, ← hslice]
      rw [List.getD_eq_getElem?_getD, List.getD_eq_getElem?_getD]
      rw [List.getElem?_take_of_lt hmlt, List.getElem?_drop]

lemma run_shifts_none (t : List Nat) :
    ∀ (shifts : List Nat) (best : Nat × TableSplit) (s : Nat),
      s ∈ shifts → candidate t s = none →
      run_shifts t shifts best = none := by
  intro shifts
  induction shifts with
  | nil => intro best s h; simp at h
  | cons s0 rest ih =>
    intro best s hmem hnone
    rw [run_shifts]
    rcases List.mem_cons.mp hmem with h | h
    · subst h
      rw [hnone]
      rfl
    · cases hc : candidate t s0 with
      | none => rfl
      | some cb =>
        obtain ⟨c, b⟩ := cb
        simpa using ih _ s h hnone

lemma run_shifts_spec (t : List Nat) :
    ∀ (shifts : List Nat) (best : Nat × TableSplit),
      (∀ s ∈ shifts, (candidate t s).isSome) →
      ∃ final, run_shifts t shifts best = some final ∧
        final.1 ≤ best.1 ∧
        (final = best ∨
          ∃ s ∈ shifts, candidate t s = some (final.2, final.1)) ∧
        (∀ s ∈ shifts, ∀ c b, candidate t s = some (c, b) → final.1 ≤ b) := by
  intro shifts
  induction shifts with
  | nil =>
    intro best _
    exact ⟨best, by simp [run_shifts], le_refl _, Or.inl rfl, by simp⟩
  | cons s0 rest ih =>
    intro best hall
    have h0 : (candidate t s0).isSome :=
      hall s0 (List.mem_cons_self _ _)
    obtain ⟨⟨c0, b0⟩, hc0⟩ := Option.isSome_iff_exists.mp h0
    have hrest : ∀ s ∈ rest, (candidate t s).isSome :=
      fun s hs => hall s (List.mem_cons_of_mem _ hs)
    set best' := if b0 < best.1 then (b0, c0) else best with hbest'
    obtain ⟨final, hrun, hle, hgood, hmin⟩ := ih best' hrest
    refine ⟨final, ?_, ?_, ?_, ?_⟩
    · rw [run_shifts, hc0]
      simpa using hrun
    · have : best'.1 ≤ best.1 := by
        rw [hbest']
        split <;> omega
      omega
    · rcases hgood with h | ⟨s, hs, hcand⟩
      · rw [hbest'] at h
        by_cases hlt : b0 < best.1
        · rw [if_pos hlt] at h
          refine Or.inr ⟨s0, List.mem_cons_self _ _, ?_⟩
          rw [hc0, h]
        · rw [if_neg hlt] at h
          exact Or.inl h
      · exact Or.inr ⟨s, List.mem_cons_of_mem _ hs, hcand⟩
    · intro s hs c b hcand
      rcases List.mem_cons.mp hs with h | h
      · subst h
        rw [hc0] at hcand
        injection hcand with hcb
        have hb : b0 = b := by
          have := congrArg Prod.snd hcb
          simpa using this
        have hb' : best'.1 ≤ b0 := by
          rw [hbest']
          split <;> omega
        omega
      · exact hmin s h c b hcand

lemma compute_maximum_shift_pow2 (t : List Nat) (k : Nat) (hk : 1 ≤ k)
    (hlen : t.length = 2 ^ k) :
    compute_maximum_shift t = some (k - 1) := by
  unfold compute_maximum_shift
  rw [hlen]
  unfold next_power_of_two
  rw [Nat.clog_pow 2 k (by norm_num), trailing_zeros_two_pow]
  simp only [if_neg (by omega : ¬ k = 0)]

lemma split_table_main (t : List Nat) (k : Nat) (hk : 1 ≤ k) (hk31 : k ≤ 31)
    (hlen : t.length = 2 ^ k) (helts : ∀ x ∈ t, x ≤ U32_MAX) :
    ∃ s s0 b0, split_table t = some s ∧ recovery_law t s ∧
      candidate t 0 = some (s0, b0) ∧ b0 = split_cost s0 ∧
      split_cost s ≤ b0 ∧ s0.shift = 0 := by
  have hbound : t.length ≤ U32_MAX := by
    rw [hlen]
    calc (2 : Nat) ^ k ≤ 2 ^ 31 := Nat.pow_le_pow_right (by norm_num) hk31
      _ ≤ U32_MAX := by norm_num [U32_MAX]
  have hne : t.length ≠ 0 := by
    rw [hlen]
    positivity
  have hdvd : ∀ s, s < k → t.length = 2 ^ s * 2 ^ (k - s) := by
    intro s hs
    rw [hlen, ← Nat.pow_add]
    congr 1
    omega
  have hcands : ∀ s ∈ List.range k, (candidate t s).isSome := by
    intro s hs
    have hs' : s < k := List.mem_range.mp hs
    obtain ⟨sc, bts, hceq, _⟩ :=
      candidate_spec t s (2 ^ (k - s)) (hdvd s hs') hne hbound helts
    rw [hceq]
    rfl
  obtain ⟨s0, b0, hc0, hshift0, hcost0, _, _, hb0le, hrec0⟩ :=
    candidate_spec t 0 (2 ^ k) (by simpa using hdvd 0 (by omega)) hne hbound helts
  obtain ⟨final, hrun, hle, hgood, hmin⟩ :=
    run_shifts_spec t (List.range k) (USIZE_MAX, initial_best) hcands
  have hfinmin : final.1 ≤ b0 :=
    hmin 0 (List.mem_range.mpr (by omega)) s0 b0 hc0
  have hb0small : b0 < USIZE_MAX := by
    have h8 : 8 * t.length ≤ 8 * 2 ^ 31 := by
      rw [hlen]
      have := Nat.pow_le_pow_right (by norm_num : 1 ≤ 2) hk31
      omega
    have : (8 : Nat) * 2 ^ 31 < USIZE_MAX := by norm_num [USIZE_MAX]
    omega
  have hnotinit : final ≠ (USIZE_MAX, initial_best) := by
    intro h
    rw [h] at hfinmin
    simp at hfinmin
    omega
  have hgood' : ∃ s ∈ List.range k, candidate t s = some (final.2, final.1) := by
    rcases hgood with h | h
    · exact absurd h hnotinit
    · exact h
  obtain ⟨sh, hshmem, hsheq⟩ := hgood'
  have hsh' : sh < k := List.mem_range.mp hshmem
  obtain ⟨sc, bts, hceq, hscshift, hsccost, _, _, _, hscrec⟩ :=
    candidate_spec t sh (2 ^ (k - sh)) (hdvd sh hsh') hne hbound helts
  rw [hceq] at hsheq
  have hpair : sc = final.2 ∧ bts = final.1 := by
    have h1 := congrArg (fun o => Option.map Prod.fst o) hsheq
    have h2 := congrArg (fun o => Option.map Prod.snd o) hsheq
    simp at h1 h2
    exact ⟨h1, h2⟩
  obtain ⟨hsc, hbts⟩ := hpair
  have hsplit : split_table t = some final.2 := by
    unfold split_table
    rw [if_neg (by omega : ¬ U32_MAX < t.length)]
    rw [compute_maximum_shift_pow2 t k hk hlen]
    have hrange : k - 1 + 1 = k := by omega
    simp only [Option.bind_eq_bind, Option.some_bind, hrange, hrun]
    obtain ⟨ty, hty⟩ := get_element_type_some t (by
      intro h; rw [h] at hne; simp at hne) helts
    simp [hty]
  refine ⟨final.2, s0, b0, hsplit, ?_, hc0, hcost0, ?_, hshift0⟩
  · rw [← hsc]
    exact hscrec
  · rw [← hsc, ← hsccost, hbts]
    exact hfinmin

lemma candidate_none_of_chunkify (t : List Nat) (s : Nat)
    (h : chunkify (2 ^ s) t = none) : candidate t s = none := by
  unfold candidate
  rw [h]
  rfl

lemma clog_shift_not_dvd (L : Nat) (h2 : 2 ≤ L) (hnp : ∀ k, L ≠ 2 ^ k) :
    ¬ (2 ^ (Nat.clog 2 L - 1)) ∣ L := by
  intro ⟨m, hm⟩
  have hlt : 2 ^ (Nat.clog 2 L - 1) < L :=
    Nat.pow_pred_clog_lt_self (by norm_num) (by omega)
  have hle : L ≤ 2 ^ Nat.clog 2 L := Nat.le_pow_clog (by norm_num) L
  have hc1 : 1 ≤ Nat.clog 2 L := Nat.clog_pos (by norm_num) (by omega)
  have hm2 : 2 ≤ m := by
    rcases Nat.lt_or_ge m 2 with h | h
    · interval_cases m <;> omega
    · exact h
  have : 2 ^ Nat.clog 2 L ≤ L := by
    calc 2 ^ Nat.clog 2 L = 2 ^ (Nat.clog 2 L - 1) * 2 := by
          rw [← Nat.pow_succ]
          congr 1
          omega
      _ ≤ 2 ^ (Nat.clog 2 L - 1) * m := Nat.mul_le_mul_left _ hm2
      _ = L := hm.symm
  exact hnp (Nat.clog 2 L) (by omega)

lemma compute_maximum_shift_ge2 (t : List Nat) (h2 : 2 ≤ t.length) :
    compute_maximum_shift t = some (Nat.clog 2 t.length - 1) := by
  unfold compute_maximum_shift next_power_of_two
  rw [trailing_zeros_two_pow]
  have hc1 : 1 ≤ Nat.clog 2 t.length := Nat.clog_pos (by norm_num) (by omega)
  simp only [if_neg (by omega : ¬ Nat.clog 2 t.length = 0)]

/-- C1: for every input vector `t` whose length is a power of two and at
least 2 (within the `t.len() <= u32::MAX` bound `split_table` itself
asserts), and whose elements are 32-bit values, `split_table` returns a
`TableSplit` satisfying the recovery law
`t[i] = index2[(index1[i >> shift] << shift) + (i & ((1 << shift) - 1))]`
at every index `i` of `t`. -/
theorem split_table_recovery (t : List Nat) (k : Nat) (hk : 1 ≤ k)
    (hk31 : k ≤ 31) (hlen : t.length = 2 ^ k)
    (helts : ∀ x ∈ t, x ≤ U32_MAX) :
    ∃ s, split_table t = some s ∧ recovery_law t s := by
  obtain ⟨s, _, _, hsplit, hrec, _⟩ := split_table_main t k hk hk31 hlen helts
  exact ⟨s, hsplit, hrec⟩

/-- Witness for C1 at the concrete vector `[7, 3, 7, 3]`. -/
theorem split_table_recovery_witness :
    ∃ s, split_table [7, 3, 7, 3] = some s ∧ recovery_law [7, 3, 7, 3] s :=
  split_table_recovery [7, 3, 7, 3] 2 (by norm_num) (by norm_num) (by decide)
    (by decide)

/-- C6: for every accepted input vector, the byte cost of the returned
split is at most the byte cost of the `shift = 0` split (the first
candidate examined by the loop). -/
theorem split_table_cost_le_shift0 (t : List Nat) (k : Nat) (hk : 1 ≤ k)
    (hk31 : k ≤ 31) (hlen : t.length = 2 ^ k)
    (helts : ∀ x ∈ t, x ≤ U32_MAX) :
    ∃ s s0 b0, split_table t = some s ∧ candidate t 0 = some (s0, b0) ∧
      s0.shift = 0 ∧ b0 = split_cost s0 ∧ split_cost s ≤ b0 := by
  obtain ⟨s, s0, b0, hsplit, _, hc0, hcost0, hle, hshift0⟩ :=
    split_table_main t k hk hk31 hlen helts
  exact ⟨s, s0, b0, hsplit, hc0, hshift0, hcost0, hle⟩

/-- Witness for C6 at the concrete vector `[0, 0, 1, 1, 0, 0, 1, 1]`. -/
theorem split_table_cost_le_shift0_witness :
    ∃ s s0 b0, split_table [0, 0, 1, 1, 0, 0, 1, 1] = some s ∧
      candidate [0, 0, 1, 1, 0, 0, 1, 1] 0 = some (s0, b0) ∧
      s0.shift = 0 ∧ b0 = split_cost s0 ∧ split_cost s ≤ b0 :=
  split_table_cost_le_shift0 [0, 0, 1, 1, 0, 0, 1, 1] 3 (by norm_num)
    (by norm_num) (by decide) (by decide)

/-- C9: for every input vector with at least two elements whose length is
not a power of two, `split_table` aborts (the chunk slice goes out of
bounds at the largest candidate shift) and never returns a
`TableSplit`. -/
theorem split_table_not_pow2_aborts (t : List Nat) (h2 : 2 ≤ t.length)
    (hnp : ∀ k, t.length ≠ 2 ^ k) :
    split_table t = none := by
  unfold split_table
  by_cases hbig : U32_MAX < t.length
  · rw [if_pos hbig]
  · rw [if_neg hbig]
    rw [compute_maximum_shift_ge2 t h2]
    have hnd := clog_shift_not_dvd t.length h2 hnp
    have hchunk : chunkify (2 ^ (Nat.clog 2 t.length - 1)) t = none :=
      chunkify_not_dvd _ (Nat.pos_pow_of_pos _ (by norm_num)) t.length t
        (le_refl _) (by omega) hnd
    have hcnone := candidate_none_of_chunkify t _ hchunk
    have hmem : Nat.clog 2 t.length - 1 ∈
        List.range (Nat.clog 2 t.length - 1 + 1) := by
      exact List.mem_range.mpr (by omega)
    have := run_shifts_none t (List.range (Nat.clog 2 t.length - 1 + 1))
      (USIZE_MAX, initial_best) _ hmem hcnone
    simp only [Option.bind_eq_bind, Option.some_bind, this]
    rfl

/-- Witness for C9 at the concrete vector `[1, 2, 3]`. -/
theorem split_table_not_pow2_aborts_witness : split_table [1, 2, 3] = none :=
  split_table_not_pow2_aborts [1, 2, 3] (by norm_num) (by
    intro k
    show (3 : Nat) ≠ 2 ^ k
    match k with
    | 0 => decide
    | 1 => decide
    | (n + 2) =>
      have h4 : (4 : Nat) ≤ 2 ^ (n + 2) := by
        calc (4 : Nat) = 2 ^ 2 := rfl
          _ ≤ 2 ^ (n + 2) := Nat.pow_le_pow_right (by norm_num) (by omega)
      omega)

/-- C4 counterexample: on the single-element vector `[7]`, `split_table`
does not return the claimed `TableSplit` (`index1 = [0]`, `index2 = [7]`,
`shift = 0`); it aborts (checked subtraction in `compute_maximum_shift`
underflows; under wrapping arithmetic the chunk slice at shift 1 goes out
of bounds instead, aborting as well). -/
theorem split_table_singleton_counterexample :
    ¬ ∃ s, split_table [7] = some s ∧ s.index1 = [0] ∧ s.index2 = [7] ∧
      s.shift = 0 := by
  intro ⟨s, hs, _⟩
  rw [show split_table [7] = none by
    simp +decide [split_table, compute_maximum_shift, next_power_of_two,
      trailing_zeros, Nat.clog]] at hs
  exact Option.noConfusion hs

/-- C4 amended: `split_table` applied to any single-element vector aborts
rather than returning. -/
theorem split_table_singleton_aborts (x : Nat) : split_table [x] = none := by
  unfold split_table
  rw [if_neg (by norm_num [U32_MAX] : ¬ U32_MAX < [x].length)]
  have hcms : compute_maximum_shift [x] = none := by
    unfold compute_maximum_shift next_power_of_two
    simp [Nat.clog_one_right, trailing_zeros]
  rw [hcms]
  rfl

lemma getD_set_self (l : List Nat) (n v d : Nat) (h : n < l.length) :
    (l.set n v).getD n d = v := by
  rw [List.getD_eq_getElem?_getD, List.getElem?_set_self (by omega),
    Option.getD_some]

lemma getD_set_ne (l : List Nat) (n c v d : Nat) (h : c ≠ n) :
    (l.set n v).getD c d = l.getD c d := by
  rw [List.getD_eq_getElem?_getD, List.getElem?_set_ne (by omega),
    ← List.getD_eq_getElem?_getD]

lemma map_get_mem {α β : Type} [DecidableEq α] (key : α) :
    ∀ (m : List (α × β)) (v : β), map_get key m = some v → (key, v) ∈ m := by
  intro m
  induction m with
  | nil => intro v h; simp [map_get] at h
  | cons p rest ih =>
    intro v h
    obtain ⟨k, w⟩ := p
    rw [map_get] at h
    by_cases hk : k = key
    · subst hk
      simp at h
      subst h
      exact List.mem_cons_self _ _
    · simp [hk] at h
      exact List.mem_cons_of_mem _ (ih v h)

lemma wrapping_add_sub16 (code target : Nat) (_hc : code ≤ MAX_BMP)
    (ht : target ≤ MAX_BMP) :
    wrapping_add16 code (wrapping_sub16 target code) = target := by
  unfold wrapping_add16 wrapping_sub16 MAX_BMP at *
  omega

lemma character_info_for_deltas (dp : DerivedCorePropertyData)
    (cp : CodePoint) :
    (character_info_for dp cp).upper_delta =
      wrapping_sub16 cp.info.uppercase cp.code ∧
    (character_info_for dp cp).lower_delta =
      wrapping_sub16 cp.info.lowercase cp.code := by
  unfold character_info_for
  exact ⟨rfl, rfl⟩

lemma character_info_for_excl (dp : DerivedCorePropertyData)
    (cp : CodePoint) :
    ((character_info_for dp cp).flags.is_unicode_id_start &&
      (character_info_for dp cp).flags.is_unicode_id_continue_only)
        = false := by
  unfold character_info_for
  by_cases h1 : cp.info.category = "Zs".toList ∨ cp.code ∈ WHITE_SPACE ∨
      cp.code ∈ LINE_TERMINATOR <;>
    by_cases h2 : cp.code ∈ dp.id_start <;>
      by_cases h3 : cp.code ∈ dp.id_continue ∨
          cp.code ∈ COMPATIBILITY_IDENTIFIER_PART <;>
        simp only [h1, h2, h3, if_true, if_false, ite_true, ite_false] <;>
          decide

lemma bmp_loop_total_spec (dp : DerivedCorePropertyData) :
    ∀ (cps : List CodePoint) (table : List CharacterInfo)
      (index : List Nat) (cache : List (CharacterInfo × Nat)),
      table.length + cps.length ≤ U32_MAX →
      (∀ p ∈ cache, p.2 < table.length ∧
        table.getD p.2 CharacterInfo.all_zeroes = p.1) →
      (∀ x ∈ table, ∃ i, map_get x cache = some i) →
      List.Pairwise (fun a b => a.code ≠ b.code) cps →
      (∀ cp ∈ cps, cp.code < index.length) →
      (∀ cp ∈ cps, cp.info.uppercase ≤ MAX_BMP ∧
        cp.info.lowercase ≤ MAX_BMP) →
      ∃ tbl idx, bmp_loop dp cps table index cache = some (tbl, idx) ∧
        (∃ ext, tbl = table ++ ext ∧
          ∀ x ∈ ext, ∃ cp ∈ cps, x = character_info_for dp cp) ∧
        idx.length = index.length ∧
        (∀ c, c ∉ cps.map CodePoint.code → idx.getD c 0 = index.getD c 0) ∧
        (∀ cp ∈ cps,
          idx.getD cp.code 0 < tbl.length ∧
          tbl.getD (idx.getD cp.code 0) CharacterInfo.all_zeroes =
            character_info_for dp cp) := by
  intro cps
  induction cps with
  | nil =>
    intro table index cache _ _ _ _ _ _
    exact ⟨table, index, by rw [bmp_loop], ⟨[], by simp, by simp⟩, rfl,
      fun c _ => rfl, by simp⟩
  | cons cp rest ih =>
    intro table index cache hlen hcache hcomplete hnodup hcodes hcase
    obtain ⟨hupper, hlower⟩ := hcase cp (List.mem_cons_self _ _)
    have hnodup' := (List.pairwise_cons.mp hnodup).2
    have hheadne := (List.pairwise_cons.mp hnodup).1
    have hcpnotrest : cp.code ∉ rest.map CodePoint.code := by
      intro hmem
      obtain ⟨cp', hcp', hcode⟩ := List.mem_map.mp hmem
      exact hheadne cp' hcp' hcode.symm
    have hcodes' : ∀ c ∈ rest, c.code < index.length :=
      fun c hc => hcodes c (List.mem_cons_of_mem _ hc)
    have hcase' : ∀ c ∈ rest, c.info.uppercase ≤ MAX_BMP ∧
        c.info.lowercase ≤ MAX_BMP :=
      fun c hc => hcase c (List.mem_cons_of_mem _ hc)
    rw [bmp_loop]
    rw [if_pos hupper, if_pos hlower]
    cases hm : map_get (character_info_for dp cp) cache with
    | some i =>
      simp only [hm]
      have hpmem := map_get_mem (character_info_for dp cp) cache i hm
      have hilt : i < table.length := (hcache _ hpmem).1
      have hitab : table.getD i CharacterInfo.all_zeroes =
          character_info_for dp cp := (hcache _ hpmem).2
      have hlen' : table.length + rest.length ≤ U32_MAX := by
        simp only [List.length_cons] at hlen
        omega
      obtain ⟨tbl, idx, hrun, ⟨ext, hext, hextmem⟩, hidxlen, hpres, hentries⟩ :=
        ih table (index.set cp.code i) cache hlen' hcache hcomplete hnodup'
          (by simpa [List.length_set] using hcodes') hcase'
      refine ⟨tbl, idx, hrun, ⟨ext, hext, ?_⟩, ?_, ?_, ?_⟩
      · intro x hx
        obtain ⟨c, hc, hcx⟩ := hextmem x hx
        exact ⟨c, List.mem_cons_of_mem _ hc, hcx⟩
      · rw [hidxlen, List.length_set]
      · intro c hc
        have hc1 : c ≠ cp.code := by
          intro h
          exact hc (by simp [h])
        have hc2 : c ∉ rest.map CodePoint.code := by
          intro h
          exact hc (by simp [h])
        rw [hpres c hc2, getD_set_ne _ _ _ _ _ hc1]
      · intro c hc
        rcases List.mem_cons.mp hc with h | h
        · subst h
          have hstable : idx.getD c.code 0 = i := by
            rw [hpres c.code hcpnotrest,
              getD_set_self _ _ _ _ (hcodes c (List.mem_cons_self _ _))]
          rw [hstable, hext]
          constructor
          · simp only [List.length_append]
            omega
          · rw [List.getD_append _ _ _ _ hilt, hitab]
        · exact hentries c h
    | none =>
      have hnotin : character_info_for dp cp ∉ table := by
        intro hmem
        obtain ⟨i, hi⟩ := hcomplete _ hmem
        rw [hm] at hi
        exact Option.noConfusion hi
      simp only [hm]
      rw [if_neg hnotin]
      have hmod : table.length % 2 ^ 32 = table.length := by
        apply Nat.mod_eq_of_lt
        have : U32_MAX < 2 ^ 32 := by norm_num [U32_MAX]
        simp only [List.length_cons] at hlen
        omega
      rw [hmod]
      have hlen' : (table ++ [character_info_for dp cp]).length + rest.length
          ≤ U32_MAX := by
        simp only [List.length_append, List.length_cons, List.length_nil]
          at hlen ⊢
        omega
      have hcache' : ∀ p ∈ (character_info_for dp cp, table.length) :: cache,
          p.2 < (table ++ [character_info_for dp cp]).length ∧
          (table ++ [character_info_for dp cp]).getD p.2
            CharacterInfo.all_zeroes = p.1 := by
        intro p hp
        rcases List.mem_cons.mp hp with h | h
        · subst h
          refine ⟨by simp, ?_⟩
          rw [List.getD_append_right _ _ _ _ (le_refl _)]
          simp
        · obtain ⟨h1, h2⟩ := hcache p h
          exact ⟨by simp; omega, by rw [List.getD_append _ _ _ _ h1, h2]⟩
      have hcomplete' : ∀ x ∈ table ++ [character_info_for dp cp],
          ∃ i, map_get x ((character_info_for dp cp, table.length) :: cache)
            = some i := by
        intro x hx
        rw [map_get]
        by_cases hxeq : character_info_for dp cp = x
        · exact ⟨table.length, by rw [if_pos hxeq]⟩
        · rw [if_neg hxeq]
          rcases List.mem_append.mp hx with h | h
          · exact hcomplete x h
          · simp at h
            exact absurd h.symm hxeq
      obtain ⟨tbl, idx, hrun, ⟨ext, hext, hextmem⟩, hidxlen, hpres, hentries⟩ :=
        ih (table ++ [character_info_for dp cp])
          (index.set cp.code table.length)
          ((character_info_for dp cp, table.length) :: cache)
          hlen' hcache' hcomplete' hnodup'
          (by simpa [List.length_set] using hcodes') hcase'
      refine ⟨tbl, idx, hrun, ⟨character_info_for dp cp :: ext, ?_, ?_⟩,
        ?_, ?_, ?_⟩
      · rw [hext, List.append_assoc]
        rfl
      · intro x hx
        rcases List.mem_cons.mp hx with h | h
        · exact ⟨cp, List.mem_cons_self _ _, h⟩
        · obtain ⟨c, hc, hcx⟩ := hextmem x h
          exact ⟨c, List.mem_cons_of_mem _ hc, hcx⟩
      · rw [hidxlen, List.length_set]
      · intro c hc
        have hc1 : c ≠ cp.code := by
          intro h
          exact hc (by simp [h])
        have hc2 : c ∉ rest.map CodePoint.code := by
          intro h
          exact hc (by simp [h])
        rw [hpres c hc2, getD_set_ne _ _ _ _ _ hc1]
      · intro c hc
        rcases List.mem_cons.mp hc with h | h
        · subst h
          have hstable : idx.getD c.code 0 = table.length := by
            rw [hpres c.code hcpnotrest,
              getD_set_self _ _ _ _ (hcodes c (List.mem_cons_self _ _))]
          rw [hstable, hext]
          constructor
          · simp only [List.length_append, List.length_cons, List.length_nil]
            omega
          · rw [List.getD_append _ _ _ _ (by simp),
              List.getD_append_right _ _ _ _ (le_refl _)]
            simp
        · exact hentries c h

lemma generate_bmp_info_spec (cpt : List CodePoint)
    (dp : DerivedCorePropertyData)
    (hsmall : cpt.length < U32_MAX)
    (hnodup : List.Pairwise (fun a b => a.code ≠ b.code) cpt)
    (hcase : ∀ cp ∈ cpt, cp.code ≤ MAX_BMP →
      cp.info.uppercase ≤ MAX_BMP ∧ cp.info.lowercase ≤ MAX_BMP) :
    ∃ bmp, generate_bmp_info cpt dp = some bmp ∧
      (∀ x ∈ bmp.table, x = CharacterInfo.all_zeroes ∨
        ∃ cp ∈ cpt, cp.code ≤ MAX_BMP ∧ x = character_info_for dp cp) ∧
      (∀ cp ∈ cpt, cp.code ≤ MAX_BMP →
        bmp.index.getD cp.code 0 < bmp.table.length ∧
        bmp.table.getD (bmp.index.getD cp.code 0) CharacterInfo.all_zeroes =
          character_info_for dp cp) := by
  have hfiltmem : ∀ cp ∈ cpt, cp.code ≤ MAX_BMP →
      cp ∈ cpt.filter (fun cp => cp.code ≤ MAX_BMP) := by
    intro cp hcp hbmp
    rw [List.mem_filter]
    exact ⟨hcp, by simpa using hbmp⟩
  have hfiltlen : (cpt.filter (fun cp => cp.code ≤ MAX_BMP)).length
      ≤ cpt.length := List.length_filter_le _ _
  obtain ⟨tbl, idx, hrun, ⟨ext, hext, hextmem⟩, hidxlen, _, hentries⟩ :=
    bmp_loop_total_spec dp (cpt.filter (fun cp => cp.code ≤ MAX_BMP))
      [CharacterInfo.all_zeroes] (List.replicate (MAX_BMP + 1) 0)
      [(CharacterInfo.all_zeroes, 0)]
      (by simp only [List.length_cons, List.length_nil]; omega)
      (by
        intro p hp
        simp only [List.mem_cons, List.not_mem_nil, or_false] at hp
        subst hp
        exact ⟨by simp, by simp⟩)
      (by
        intro x hx
        simp only [List.mem_cons, List.not_mem_nil, or_false] at hx
        subst hx
        exact ⟨0, by rw [map_get, if_pos rfl]⟩)
      (hnodup.filter _)
      (by
        intro cp hcp
        have := (List.mem_filter.mp hcp).2
        simp only [decide_eq_true_eq] at this
        rw [List.length_replicate]
        simp only [MAX_BMP] at this ⊢
        omega)
      (by
        intro cp hcp
        obtain ⟨hmem, hbmp⟩ := List.mem_filter.mp hcp
        exact hcase cp hmem (by simpa using hbmp))
  refine ⟨BMPInfo.mk tbl idx, ?_, ?_, ?_⟩
  · unfold generate_bmp_info
    simp only [hrun, Option.map_some]
    rfl
  · intro x hx
    simp only at hx
    rw [hext] at hx
    rcases List.mem_append.mp hx with h | h
    · simp only [List.mem_cons, List.not_mem_nil, or_false] at h
      exact Or.inl h
    · obtain ⟨cp, hcp, hxcp⟩ := hextmem x h
      obtain ⟨hmem, hbmp⟩ := List.mem_filter.mp hcp
      exact Or.inr ⟨cp, hmem, by simpa using hbmp, hxcp⟩
  · intro cp hcp hbmp
    exact hentries cp (hfiltmem cp hcp hbmp)

/-- C2: for every code point `c ≤ 0xFFFF` of the registry, applying the
`CharacterInfo` interned for `c` by `generate_bmp_info` — that is,
`bmp.table[bmp.index[c]].apply(c)`, which adds the stored deltas to `c`
with 16-bit wrapping addition — yields exactly the registry's
`(uppercase, lowercase)` pair for `c`.  (The registry is any record list
with pairwise-distinct codes, as iterated from the code-point hash map;
`hcase` states that the BMP case-mapping assertions of the loop hold,
without which generation aborts.) -/
theorem bmp_apply_recovers (cpt : List CodePoint)
    (dp : DerivedCorePropertyData)
    (hsmall : cpt.length < U32_MAX)
    (hnodup : List.Pairwise (fun a b => a.code ≠ b.code) cpt)
    (hcase : ∀ cp ∈ cpt, cp.code ≤ MAX_BMP →
      cp.info.uppercase ≤ MAX_BMP ∧ cp.info.lowercase ≤ MAX_BMP) :
    ∃ bmp, generate_bmp_info cpt dp = some bmp ∧
      ∀ cp ∈ cpt, cp.code ≤ MAX_BMP →
        ∃ mc, (bmp.table.getD (bmp.index.getD cp.code 0)
            CharacterInfo.all_zeroes).apply cp.code = some mc ∧
          mc.upper = cp.info.uppercase ∧ mc.lower = cp.info.lowercase := by
  obtain ⟨bmp, hgen, _, hentries⟩ :=
    generate_bmp_info_spec cpt dp hsmall hnodup hcase
  refine ⟨bmp, hgen, ?_⟩
  intro cp hcp hbmp
  obtain ⟨_, hentry⟩ := hentries cp hcp hbmp
  obtain ⟨hupper, hlower⟩ := hcase cp hcp hbmp
  rw [hentry]
  unfold CharacterInfo.apply
  rw [if_pos hbmp]
  obtain ⟨hud, hld⟩ := character_info_for_deltas dp cp
  refine ⟨_, rfl, ?_, ?_⟩
  · simp only [hud]
    exact wrapping_add_sub16 cp.code cp.info.uppercase hbmp hupper
  · simp only [hld]
    exact wrapping_add_sub16 cp.code cp.info.lowercase hbmp hlower

/-- Witness for C2 at a two-record registry (LATIN CAPITAL LETTER A and
LATIN SMALL LETTER A). -/
theorem bmp_apply_recovers_witness :
    ∃ bmp, generate_bmp_info
        [CodePoint.mk 0x41 (CodePointInfo.mk "LATIN CAPITAL LETTER A".toList
            "Lu".toList [] 0x41 0x61),
         CodePoint.mk 0x61 (CodePointInfo.mk "LATIN SMALL LETTER A".toList
            "Ll".toList [] 0x41 0x61)]
        (DerivedCorePropertyData.mk [0x41, 0x61] [0x41, 0x61]) = some bmp ∧
      ∀ cp ∈ [CodePoint.mk 0x41 (CodePointInfo.mk
            "LATIN CAPITAL LETTER A".toList "Lu".toList [] 0x41 0x61),
         CodePoint.mk 0x61 (CodePointInfo.mk "LATIN SMALL LETTER A".toList
            "Ll".toList [] 0x41 0x61)], cp.code ≤ MAX_BMP →
        ∃ mc, (bmp.table.getD (bmp.index.getD cp.code 0)
            CharacterInfo.all_zeroes).apply cp.code = some mc ∧
          mc.upper = cp.info.uppercase ∧ mc.lower = cp.info.lowercase :=
  bmp_apply_recovers _ _ (by norm_num [U32_MAX]) (by decide) (by decide)

/-- C7: no `CharacterInfo` built by `generate_bmp_info` has both the
`FLAG_UNICODE_ID_START` bit and the `FLAG_UNICODE_ID_CONTINUE_ONLY` bit
set: every entry of `BMPInfo.table` has at most one of the two identifier
bits. -/
theorem bmp_flags_mutually_exclusive (cpt : List CodePoint)
    (dp : DerivedCorePropertyData)
    (hsmall : cpt.length < U32_MAX)
    (hnodup : List.Pairwise (fun a b => a.code ≠ b.code) cpt)
    (hcase : ∀ cp ∈ cpt, cp.code ≤ MAX_BMP →
      cp.info.uppercase ≤ MAX_BMP ∧ cp.info.lowercase ≤ MAX_BMP) :
    ∃ bmp, generate_bmp_info cpt dp = some bmp ∧
      ∀ info ∈ bmp.table,
        (info.flags.is_unicode_id_start &&
          info.flags.is_unicode_id_continue_only) = false := by
  obtain ⟨bmp, hgen, htable, _⟩ :=
    generate_bmp_info_spec cpt dp hsmall hnodup hcase
  refine ⟨bmp, hgen, ?_⟩
  intro info hinfo
  rcases htable info hinfo with h | ⟨cp, _, _, h⟩
  · subst h
    decide
  · subst h
    exact character_info_for_excl dp cp

/-- Witness for C7 at the same two-record registry as the C2 witness. -/
theorem bmp_flags_mutually_exclusive_witness :
    ∃ bmp, generate_bmp_info
        [CodePoint.mk 0x41 (CodePointInfo.mk "LATIN CAPITAL LETTER A".toList
            "Lu".toList [] 0x41 0x61),
         CodePoint.mk 0x61 (CodePointInfo.mk "LATIN SMALL LETTER A".toList
            "Ll".toList [] 0x41 0x61)]
        (DerivedCorePropertyData.mk [0x41, 0x61] [0x41, 0x61]) = some bmp ∧
      ∀ info ∈ bmp.table,
        (info.flags.is_unicode_id_start &&
          info.flags.is_unicode_id_continue_only) = false :=
  bmp_flags_mutually_exclusive _ _ (by norm_num [U32_MAX]) (by decide)
    (by decide)

/-- C8: the case-folding reader yields a `(code, mapping)` pair for
exactly the non-comment lines whose status field is `"C"` or `"S"`
(first conjunct: on an input whose lines all parse, the output is
exactly the per-line yields, which are `some` only for `C`/`S` lines and
`none` for comment/empty and `F`/`T` lines); and a line with any other
status value aborts generation (second conjunct). -/
theorem case_folding_reader_filters (lines : List (List Char)) :
    ((∀ l ∈ lines, fold_line_ok l = true) →
      case_folding_parse lines = some (lines.filterMap fold_line_yield)) ∧
    (∀ l ∈ lines, fold_line_bad_status l = true →
      case_folding_parse lines = none) := by
  induction lines with
  | nil => exact ⟨fun _ => rfl, fun l hl => absurd hl (by simp)⟩
  | cons l rest ih =>
    constructor
    · intro hok
      have hokl := hok l (List.mem_cons_self _ _)
      have hokrest : ∀ x ∈ rest, fold_line_ok x = true :=
        fun x hx => hok x (List.mem_cons_of_mem _ hx)
      have hrest := ih.1 hokrest
      rw [case_folding_parse]
      by_cases hempty : strip_comment l = []
      · rw [if_pos hempty, hrest, List.filterMap_cons]
        have hyield : fold_line_yield l = none := by
          unfold fold_line_yield
          rw [if_pos hempty]
        rw [hyield]
      · rw [if_neg hempty]
        unfold fold_line_ok at hokl
        rw [if_neg hempty] at hokl
        simp only [Bool.and_eq_true, decide_eq_true_eq] at hokl
        obtain ⟨hlen, hstat⟩ := hokl
        rw [if_pos hlen]
        by_cases hcs :
            (split_seq "; ".toList (strip_comment l)).getD 1 [] = "C".toList ∨
            (split_seq "; ".toList (strip_comment l)).getD 1 [] = "S".toList
        · rw [if_pos hcs]
          rw [if_pos hcs] at hstat
          simp only [Bool.and_eq_true, Option.isSome_iff_exists] at hstat
          obtain ⟨⟨code, hcode⟩, ⟨mapping, hmapping⟩⟩ := hstat
          have hyield : fold_line_yield l = some (code, mapping) := by
            unfold fold_line_yield
            rw [if_neg hempty, if_pos hcs, hcode, hmapping]
          rw [hcode, hmapping, List.filterMap_cons, hyield]
          simp only [Option.bind_eq_bind, Option.some_bind, hrest]
          rfl
        · rw [if_neg hcs]
          rw [if_neg hcs] at hstat
          simp only [decide_eq_true_eq] at hstat
          rw [if_pos hstat, hrest, List.filterMap_cons]
          have hyield : fold_line_yield l = none := by
            unfold fold_line_yield
            rw [if_neg hempty, if_neg hcs]
          rw [hyield]
    · intro l2 hl2 hbad
      rcases List.mem_cons.mp hl2 with heq | hmem
      · subst heq
        unfold fold_line_bad_status at hbad
        simp only [Bool.and_eq_true, Bool.not_eq_true', Bool.or_eq_false_iff,
          decide_eq_true_eq, decide_eq_false_iff_not] at hbad
        obtain ⟨hempty, hlen, hstat⟩ := hbad
        rw [case_folding_parse, if_neg hempty, if_pos hlen,
          if_neg (by tauto), if_neg (by tauto)]
      · have hrest := ih.2 l2 hmem hbad
        rw [case_folding_parse]
        by_cases hempty : strip_comment l = []
        · rw [if_pos hempty, hrest]
        · rw [if_neg hempty]
          by_cases hlen :
              (split_seq "; ".toList (strip_comment l)).length = 4
          · rw [if_pos hlen]
            by_cases hcs :
              (split_seq "; ".toList (strip_comment l)).getD 1 []
                  = "C".toList ∨
              (split_seq "; ".toList (strip_comment l)).getD 1 []
                  = "S".toList
            · rw [if_pos hcs]
              cases hcode : from_str_radix16 U32_MAX
                  ((split_seq "; ".toList (strip_comment l)).getD 0 []) with
              | none => rfl
              | some code =>
                cases hmapping : from_str_radix16 U32_MAX
                    ((split_seq "; ".toList (strip_comment l)).getD 2 []) with
                | none => rfl
                | some mapping =>
                  simp only [Option.bind_eq_bind, Option.some_bind, hrest,
                    Option.none_bind]
            · rw [if_neg hcs]
              by_cases hft :
                (split_seq "; ".toList (strip_comment l)).getD 1 []
                    = "F".toList ∨
                (split_seq "; ".toList (strip_comment l)).getD 1 []
                    = "T".toList
              · rw [if_pos hft, hrest]
              · rw [if_neg hft]
          · rw [if_neg hlen]

/-- Witness for C8: a concrete input exercising a kept `C` line, a kept
`S` line, skipped comment/empty/`F`/`T` lines, and (second conjunct) an
aborting unknown status. -/
theorem case_folding_reader_filters_witness :
    case_folding_parse [
      "0041; C; 0061; # LATIN CAPITAL LETTER A".toList,
      "# comment only".toList,
      "0049; T; 0131; # LATIN CAPITAL LETTER I".toList,
      "00DF; F; 0073 0073; # LATIN SMALL LETTER SHARP S".toList,
      "0042; S; 0062; # LATIN CAPITAL LETTER B".toList]
      = some [(0x41, 0x61), (0x42, 0x62)] ∧
    case_folding_parse ["0041; X; 0061; # bad status".toList] = none := by
  constructor
  · have h := (case_folding_reader_filters [
      "0041; C; 0061; # LATIN CAPITAL LETTER A".toList,
      "# comment only".toList,
      "0049; T; 0131; # LATIN CAPITAL LETTER I".toList,
      "00DF; F; 0073 0073; # LATIN SMALL LETTER SHARP S".toList,
      "0042; S; 0062; # LATIN CAPITAL LETTER B".toList]).1 (by decide)
    rw [h]
    decide
  · exact (case_folding_reader_filters
      ["0041; X; 0061; # bad status".toList]).2
      "0041; X; 0061; # bad status".toList (by decide) (by decide)

/-- C3 counterexample: on the iota fold class (modelled from the spec,
S5), the equivalents list `process_case_folding` computes for U+0399 is
`[0x03B9, 0x0345, 0x1FBE]` — the fold target first — not the ascending
`[0x0345, 0x03B9, 0x1FBE]` the claim states. -/
theorem equivalents_unsorted_counterexample :
    (process_case_folding iota_class_foldings).map
        (fun d => map_get 0x0399 d.all_codes_with_equivalents)
      = some (some [0x03B9, 0x0345, 0x1FBE]) ∧
    (some (some [0x03B9, 0x0345, 0x1FBE]) :
        Option (Option (List Nat)))
      ≠ some (some [0x0345, 0x03B9, 0x1FBE]) := by
  exact ⟨by decide, by decide⟩

/-- C3 amended: on the modelled iota fold class, every entry of
`all_codes_with_equivalents` lists exactly the non-identical members of
the code's fold equivalence class, with the fold target first (followed
by the other sources in ascending order) for forward-mapping codes; in
particular the entry for U+0399 is `[0x03B9, 0x0345, 0x1FBE]`. -/
theorem equivalents_exact_class_target_first :
    (process_case_folding iota_class_foldings).map
        (fun d => d.all_codes_with_equivalents)
      = some [(0x0345, [0x03B9, 0x0399, 0x1FBE]),
              (0x0399, [0x03B9, 0x0345, 0x1FBE]),
              (0x03B9, [0x0345, 0x0399, 0x1FBE]),
              (0x1FBE, [0x03B9, 0x0345, 0x0399])] ∧
    (∀ p ∈ [((0x0345 : Nat), [(0x03B9 : Nat), 0x0399, 0x1FBE]),
              (0x0399, [0x03B9, 0x0345, 0x1FBE]),
              (0x03B9, [0x0345, 0x0399, 0x1FBE]),
              (0x1FBE, [0x03B9, 0x0345, 0x0399])],
      p.2.Nodup ∧
        (∀ c ∈ p.2, c ∈ [0x0345, 0x0399, 0x03B9, 0x1FBE] ∧ c ≠ p.1) ∧
        (∀ c ∈ [(0x0345 : Nat), 0x0399, 0x03B9, 0x1FBE], c ≠ p.1 →
          c ∈ p.2)) := by
  exact ⟨by decide, by decide⟩

/-- C5 counterexample: a `".., First>"` record whose next line is an
ordinary record (not the sibling `"Last>"` line) does not abort the
registry parse; the parse silently takes that line's code as the range
end and yields the materialized range. -/
theorem first_without_last_counterexample :
    unicode_data_parse
        ["D800;<Thing, First>;Cs;0;L;;;;;N;;;;;".toList,
         "D802;OTHER;Lu;0;L;;;;;N;;;;;".toList]
      = some [
        CodePoint.mk 0xD800 (CodePointInfo.mk "Thing".toList "Cs".toList []
          0xD800 0xD800),
        CodePoint.mk 0xD801 (CodePointInfo.mk "Thing".toList "Cs".toList []
          0xD800 0xD800),
        CodePoint.mk 0xD802 (CodePointInfo.mk "Thing".toList "Cs".toList []
          0xD800 0xD800)] := by
  decide

/-- C5 amended: after a well-formed `".., First>"` record the parse
aborts only when no line follows at all; when any line with fifteen
fields and a parsable code follows, that code is taken as the inclusive
range end (whether or not the line is the sibling `"Last>"` record). -/
theorem unicode_data_first_range_behavior
    (l1 l2 : List Char) (f1 f2 : List (List Char)) (c1 c2 : Nat)
    (i1 : CodePointInfo) (nm : List Char)
    (h1 : to_fields l1 = some f1) (hc1 : get_code f1 = some c1)
    (hi1 : decompose_fields c1 f1 = some i1)
    (hfr : is_first_range_name i1.name = true)
    (hnm : range_interior_name i1.name = some nm)
    (h2 : to_fields l2 = some f2) (hc2 : get_code f2 = some c2) :
    unicode_data_parse [l1] = none ∧
    unicode_data_parse [l1, l2] =
      some (range_code_points c1 c2
        (CodePointInfo.mk nm i1.category i1.«alias» i1.uppercase
          i1.lowercase)) := by
  constructor
  · rw [unicode_data_parse]
    simp only [h1, hc1, hi1, Option.bind_eq_bind, Option.some_bind]
    rw [if_pos hfr]
  · rw [unicode_data_parse]
    simp only [h1, hc1, hi1, Option.bind_eq_bind, Option.some_bind]
    rw [if_pos hfr]
    simp only [h2, hc2, hnm, Option.bind_eq_bind, Option.some_bind]
    rw [show unicode_data_parse [] = some [] from rfl]
    simp only [Option.some_bind, List.append_nil]
    rfl

/-- Witness for the amended C5 at the concrete pair of lines of the
counterexample, and at the lone `First>` line. -/
theorem unicode_data_first_range_behavior_witness :
    unicode_data_parse ["D800;<Thing, First>;Cs;0;L;;;;;N;;;;;".toList]
        = none ∧
    unicode_data_parse
        ["D800;<Thing, First>;Cs;0;L;;;;;N;;;;;".toList,
         "D803;ANOTHER;Lu;0;L;;;;;N;;;;;".toList]
      = some (range_code_points 0xD800 0xD803
          (CodePointInfo.mk "Thing".toList "Cs".toList [] 0xD800 0xD800)) :=
  unicode_data_first_range_behavior
    "D800;<Thing, First>;Cs;0;L;;;;;N;;;;;".toList
    "D803;ANOTHER;Lu;0;L;;;;;N;;;;;".toList
    (split_char ';' "D800;<Thing, First>;Cs;0;L;;;;;N;;;;;".toList)
    (split_char ';' "D803;ANOTHER;Lu;0;L;;;;;N;;;;;".toList)
    0xD800 0xD803
    (CodePointInfo.mk "<Thing, First>".toList "Cs".toList [] 0xD800 0xD800)
    "Thing".toList
    (by decide) (by decide) (by decide) (by decide) (by decide) (by decide)
    (by decide)

lemma from_hex_digits_le (maxv : Nat) :
    ∀ (s : List Char) (acc v : Nat), acc ≤ maxv →
      from_hex_digits maxv acc s = some v → v ≤ maxv := by
  intro s
  induction s with
  | nil =>
    intro acc v hacc h
    rw [from_hex_digits] at h
    simp at h
    omega
  | cons c cs ih =>
    intro acc v hacc h
    rw [from_hex_digits] at h
    cases hd : hex_digit c with
    | none => rw [hd] at h; simp at h
    | some d =>
      rw [hd] at h
      simp only [Option.bind_eq_bind, Option.some_bind] at h
      by_cases hover : maxv < acc * 16 + d
      · rw [if_pos hover] at h
        simp at h
      · rw [if_neg hover] at h
        exact ih _ v (by omega) h

lemma from_str_radix16_le (maxv : Nat) (s : List Char) (v : Nat)
    (h : from_str_radix16 maxv s = some v) : v ≤ maxv := by
  unfold from_str_radix16 at h
  by_cases hne : (match s with
    | '+' :: rest => rest
    | _ => s) = []
  · rw [if_pos hne] at h
    exact absurd h (by simp)
  · rw [if_neg hne] at h
    exact from_hex_digits_le maxv _ 0 v (Nat.zero_le _) h

lemma from_hex_digits_overflow (bigm smallm : Nat) :
    ∀ (s : List Char) (acc v : Nat),
      from_hex_digits bigm acc s = some v → smallm < v → acc ≤ smallm →
      from_hex_digits smallm acc s = none := by
  intro s
  induction s with
  | nil =>
    intro acc v h hv hacc
    rw [from_hex_digits] at h
    simp at h
    omega
  | cons c cs ih =>
    intro acc v h hv hacc
    rw [from_hex_digits] at h ⊢
    cases hd : hex_digit c with
    | none => rw [hd] at h; simp at h
    | some d =>
      rw [hd] at h
      simp only [Option.bind_eq_bind, Option.some_bind] at h ⊢
      by_cases hoverbig : bigm < acc * 16 + d
      · rw [if_pos hoverbig] at h
        simp at h
      · rw [if_neg hoverbig] at h
        by_cases hoversmall : smallm < acc * 16 + d
        · rw [if_pos hoversmall]
        · rw [if_neg hoversmall]
          exact ih _ v h hv (by omega)

lemma from_str_radix16_overflow (bigm smallm : Nat) (s : List Char)
    (v : Nat) (h : from_str_radix16 bigm s = some v) (hv : smallm < v) :
    from_str_radix16 smallm s = none := by
  unfold from_str_radix16 at h ⊢
  by_cases hne : (match s with
    | '+' :: rest => rest
    | _ => s) = []
  · rw [if_pos hne] at h
    exact absurd h (by simp)
  · rw [if_neg hne] at h ⊢
    exact from_hex_digits_overflow bigm smallm _ 0 v h hv (Nat.zero_le _)

lemma map_collect_some_bound {α : Type} (g : α → Option Nat) (bound : Nat)
    (hg : ∀ a v, g a = some v → v ≤ bound) :
    ∀ (l : List α) (out : List Nat), map_collect g l = some out →
      ∀ x ∈ out, x ≤ bound := by
  intro l
  induction l with
  | nil =>
    intro out h x hx
    rw [map_collect] at h
    simp at h
    subst h
    simp at hx
  | cons a as ih =>
    intro out h x hx
    rw [map_collect] at h
    cases hga : g a with
    | none => rw [hga] at h; simp at h
    | some v =>
      rw [hga] at h
      cases has : map_collect g as with
      | none => rw [has] at h; simp at h
      | some vs =>
        rw [has] at h
        simp at h
        subst h
        rcases List.mem_cons.mp hx with hxeq | hxmem
        · subst hxeq; exact hg a x hga
        · exact ih vs has x hxmem

lemma map_collect_none_of_mem {α β : Type} (g : α → Option β) :
    ∀ (l : List α) (a : α), a ∈ l → g a = none → map_collect g l = none := by
  intro l
  induction l with
  | nil => intro a ha; simp at ha
  | cons b bs ih =>
    intro a ha hga
    rw [map_collect]
    rcases List.mem_cons.mp ha with heq | hmem
    · subst heq
      rw [hga]
      rfl
    · cases hgb : g b with
      | none => rfl
      | some v =>
        rw [ih a hmem hga]
        rfl

lemma parse_codes_field_le (field : List Char) (codes : List Nat)
    (h : parse_codes_field field = some codes) :
    ∀ x ∈ codes, x ≤ 0xFFFF := by
  unfold parse_codes_field at h
  by_cases hf : trim field = []
  · rw [if_pos hf] at h
    simp at h
    subst h
    simp
  · rw [if_neg hf] at h
    exact map_collect_some_bound _ 0xFFFF
      (fun a v hv => from_str_radix16_le 0xFFFF a v hv) _ codes h

lemma btree_insert_mem {β : Type} (key : Nat) (v : β) :
    ∀ (m : List (Nat × β)) (x : Nat × β),
      x ∈ btree_insert key v m → x = (key, v) ∨ x ∈ m := by
  intro m
  induction m with
  | nil =>
    intro x hx
    rw [btree_insert] at hx
    simp at hx
    exact Or.inl hx
  | cons p rest ih =>
    intro x hx
    obtain ⟨k, w⟩ := p
    rw [btree_insert] at hx
    by_cases h1 : key < k
    · rw [if_pos h1] at hx
      rcases List.mem_cons.mp hx with h | h
      · exact Or.inl h
      · exact Or.inr h
    · rw [if_neg h1] at hx
      by_cases h2 : key = k
      · rw [if_pos h2] at hx
        rcases List.mem_cons.mp hx with h | h
        · exact Or.inl h
        · exact Or.inr (List.mem_cons_of_mem _ h)
      · rw [if_neg h2] at hx
        rcases List.mem_cons.mp hx with h | h
        · exact Or.inr (h ▸ List.mem_cons_self _ _)
        · rcases ih x h with h3 | h3
          · exact Or.inl h3
          · exact Or.inr (List.mem_cons_of_mem _ h3)

lemma assoc_update_mem {α β : Type} [DecidableEq α] (key : α) (v : β) :
    ∀ (m : List (α × β)) (x : α × β),
      x ∈ assoc_update key v m → x = (key, v) ∨ x ∈ m := by
  intro m
  induction m with
  | nil =>
    intro x hx
    rw [assoc_update] at hx
    simp at hx
    exact Or.inl hx
  | cons p rest ih =>
    intro x hx
    obtain ⟨k, w⟩ := p
    rw [assoc_update] at hx
    by_cases h1 : k = key
    · rw [if_pos h1] at hx
      rcases List.mem_cons.mp hx with h | h
      · exact Or.inl h
      · exact Or.inr (List.mem_cons_of_mem _ h)
    · rw [if_neg h1] at hx
      rcases List.mem_cons.mp hx with h | h
      · exact Or.inr (h ▸ List.mem_cons_self _ _)
      · rcases ih x h with h3 | h3
        · exact Or.inl h3
        · exact Or.inr (List.mem_cons_of_mem _ h3)

lemma split_char_ne_nil (sep : Char) (s : List Char) :
    split_char sep s ≠ [] := by
  cases s with
  | nil => rw [split_char]; simp
  | cons c rest =>
    rw [split_char]
    by_cases h : c = sep
    · rw [if_pos h]; simp
    · rw [if_neg h]
      cases hs : split_char sep rest with
      | nil => simp
      | cons a as => simp

lemma special_casing_parse_cons_none (l : List Char)
    (rest : List (List Char)) (h : special_casing_parse rest = none) :
    special_casing_parse (l :: rest) = none := by
  rw [special_casing_parse]
  by_cases hempty : strip_comment l = []
  · rw [if_pos hempty]
    exact h
  · rw [if_neg hempty]
    simp only [Option.bind_eq_bind]
    cases h0 : (split_char ';' (strip_comment l)).get? 0 with
    | none => rfl
    | some cf =>
      simp only [Option.some_bind]
      cases h1 : from_str_radix16 U32_MAX (trim cf) with
      | none => rfl
      | some code =>
        simp only [Option.some_bind]
        cases h2 : (split_char ';' (strip_comment l)).get? 1 with
        | none => rfl
        | some lf =>
          simp only [Option.some_bind]
          cases h3 : parse_codes_field lf with
          | none => rfl
          | some lower =>
            simp only [Option.some_bind]
            cases h4 : (split_char ';' (strip_comment l)).get? 2 with
            | none => rfl
            | some tf =>
              simp only [Option.some_bind]
              cases h5 : parse_codes_field tf with
              | none => rfl
              | some ti =>
                simp only [Option.some_bind]
                cases h6 : (split_char ';' (strip_comment l)).get? 3 with
                | none => rfl
                | some uf =>
                  simp only [Option.some_bind]
                  cases h7 : parse_codes_field uf with
                  | none => rfl
                  | some upper =>
                    simp only [Option.some_bind]
                    cases h8 : (split_char ';' (strip_comment l)).get? 4 with
                    | none => rfl
                    | some cdf =>
                      simp only [Option.some_bind]
                      by_cases h9 : trim cdf = []
                      · rw [if_pos h9, h]
                        rfl
                      · rw [if_neg h9]
                        cases h10 : classify_conditions
                            (split_char ' ' (trim cdf)) ([], []) with
                        | none => rfl
                        | some lcs =>
                          simp only [Option.some_bind, h]
                          rfl

lemma special_casing_parse_bounds :
    ∀ (lines : List (List Char)) (cases2 : List SpecialCase),
      special_casing_parse lines = some cases2 →
      ∀ sc ∈ cases2, (∀ x ∈ sc.lower, x ≤ 0xFFFF) ∧
        (∀ x ∈ sc.upper, x ≤ 0xFFFF) := by
  intro lines
  induction lines with
  | nil =>
    intro cases2 hp sc hsc
    rw [special_casing_parse] at hp
    simp at hp
    subst hp
    simp at hsc
  | cons l rest ih =>
    intro cases2 hp sc hsc
    rw [special_casing_parse] at hp
    by_cases hempty : strip_comment l = []
    · rw [if_pos hempty] at hp
      exact ih cases2 hp sc hsc
    · rw [if_neg hempty] at hp
      simp only [Option.bind_eq_bind] at hp
      cases h0 : (split_char ';' (strip_comment l)).get? 0 with
      | none => rw [h0] at hp; simp at hp
      | some cf =>
      rw [h0] at hp
      simp only [Option.some_bind] at hp
      cases h1 : from_str_radix16 U32_MAX (trim cf) with
      | none => rw [h1] at hp; simp at hp
      | some code =>
      rw [h1] at hp
      simp only [Option.some_bind] at hp
      cases h2 : (split_char ';' (strip_comment l)).get? 1 with
      | none => rw [h2] at hp; simp at hp
      | some lf =>
      rw [h2] at hp
      simp only [Option.some_bind] at hp
      cases h3 : parse_codes_field lf with
      | none => rw [h3] at hp; simp at hp
      | some lower =>
      rw [h3] at hp
      simp only [Option.some_bind] at hp
      cases h4 : (split_char ';' (strip_comment l)).get? 2 with
      | none => rw [h4] at hp; simp at hp
      | some tf =>
      rw [h4] at hp
      simp only [Option.some_bind] at hp
      cases h5 : parse_codes_field tf with
      | none => rw [h5] at hp; simp at hp
      | some ti =>
      rw [h5] at hp
      simp only [Option.some_bind] at hp
      cases h6 : (split_char ';' (strip_comment l)).get? 3 with
      | none => rw [h6] at hp; simp at hp
      | some uf =>
      rw [h6] at hp
      simp only [Option.some_bind] at hp
      cases h7 : parse_codes_field uf with
      | none => rw [h7] at hp; simp at hp
      | some upper =>
      rw [h7] at hp
      simp only [Option.some_bind] at hp
      cases h8 : (split_char ';' (strip_comment l)).get? 4 with
      | none => rw [h8] at hp; simp at hp
      | some cdf =>
      rw [h8] at hp
      simp only [Option.some_bind] at hp
      have hlowerb := parse_codes_field_le lf lower h3
      have hupperb := parse_codes_field_le uf upper h7
      by_cases h9 : trim cdf = []
      · rw [if_pos h9] at hp
        cases h11 : special_casing_parse rest with
        | none => rw [h11] at hp; simp at hp
        | some tail =>
          rw [h11] at hp
          simp only [Option.some_bind] at hp
          have hcases : cases2 = SpecialCase.mk code lower upper [] [] :: tail := by
            injection hp with h
            exact h.symm
          subst hcases
          rcases List.mem_cons.mp hsc with heq | hmem
          · subst heq
            exact ⟨hlowerb, hupperb⟩
          · exact ih tail h11 sc hmem
      · rw [if_neg h9] at hp
        cases h10 : classify_conditions (split_char ' ' (trim cdf)) ([], []) with
        | none => rw [h10] at hp; simp at hp
        | some lcs =>
          rw [h10] at hp
          simp only [Option.some_bind] at hp
          cases h11 : special_casing_parse rest with
          | none => rw [h11] at hp; simp at hp
          | some tail =>
            rw [h11] at hp
            simp only [Option.some_bind] at hp
            have hcases : cases2 =
                SpecialCase.mk code lower upper lcs.1 lcs.2 :: tail := by
              injection hp with h
              exact h.symm
            subst hcases
            rcases List.mem_cons.mp hsc with heq | hmem
            · subst heq
              exact ⟨hlowerb, hupperb⟩
            · exact ih tail h11 sc hmem

lemma bmp_only_insert_lang (m :
    List (List Char × List (Nat × (List Nat × Option (List Char)))))
    (language : List Char) (code : Nat) (seq : List Nat)
    (ctx : Option (List Char))
    (hm : ∀ q ∈ m, ∀ p ∈ q.2, p.1 ≤ MAX_BMP ∧ ∀ x ∈ p.2.1, x ≤ MAX_BMP)
    (hcode : code ≤ MAX_BMP) (hseq : ∀ x ∈ seq, x ≤ MAX_BMP) :
    ∀ q ∈ assoc_update language
        (btree_insert code (seq, ctx) ((map_get language m).getD [])) m,
      ∀ p ∈ q.2, p.1 ≤ MAX_BMP ∧ ∀ x ∈ p.2.1, x ≤ MAX_BMP := by
  intro q hq p hp
  rcases assoc_update_mem _ _ m q hq with hq1 | hq1
  · subst hq1
    rcases btree_insert_mem code (seq, ctx) _ p hp with hp1 | hp1
    · subst hp1
      exact ⟨hcode, hseq⟩
    · cases hmg : map_get language m with
      | none =>
        rw [hmg] at hp1
        simp at hp1
      | some inner =>
        rw [hmg] at hp1
        simp only [Option.getD_some] at hp1
        exact hm (language, inner) (map_get_mem language m inner hmg) p hp1
  · exact hm q hq1 p hp

lemma bmp_only_insert_flat {β : Type} (seq_of : β → List Nat)
    (m : List (Nat × β)) (code : Nat) (v : β)
    (hm : ∀ p ∈ m, p.1 ≤ MAX_BMP ∧ ∀ x ∈ seq_of p.2, x ≤ MAX_BMP)
    (hcode : code ≤ MAX_BMP) (hseq : ∀ x ∈ seq_of v, x ≤ MAX_BMP) :
    ∀ p ∈ btree_insert code v m,
      p.1 ≤ MAX_BMP ∧ ∀ x ∈ seq_of p.2, x ≤ MAX_BMP := by
  intro p hp
  rcases btree_insert_mem code v m p hp with h | h
  · subst h
    exact ⟨hcode, hseq⟩
  · exact hm p h

lemma special_casing_loop_spec (bmp : BMPInfo) :
    ∀ (cases2 : List SpecialCase) (data out : SpecialCasingData),
      special_casing_loop bmp cases2 data = some out →
      (∀ sc ∈ cases2, (∀ x ∈ sc.lower, x ≤ MAX_BMP) ∧
        (∀ x ∈ sc.upper, x ≤ MAX_BMP)) →
      special_casing_data_bmp_only data →
      (∀ sc ∈ cases2, sc.code ≤ MAX_BMP) ∧
        special_casing_data_bmp_only out := by
  intro cases2
  induction cases2 with
  | nil =>
    intro data out hrun _ hP
    rw [special_casing_loop] at hrun
    injection hrun with h
    subst h
    exact ⟨by simp, hP⟩
  | cons sc rest ih =>
    intro data out hrun hbounds hP
    obtain ⟨hlowerb, hupperb⟩ := hbounds sc (List.mem_cons_self _ _)
    have hbounds' : ∀ c ∈ rest, (∀ x ∈ c.lower, x ≤ MAX_BMP) ∧
        (∀ x ∈ c.upper, x ≤ MAX_BMP) :=
      fun c hc => hbounds c (List.mem_cons_of_mem _ hc)
    rw [special_casing_loop] at hrun
    by_cases hcode : sc.code ≤ MAX_BMP
    swap
    · rw [if_neg hcode] at hrun
      exact absurd hrun (by simp)
    rw [if_pos hcode] at hrun
    by_cases hlangs : sc.languages.length ≤ 1
    swap
    · rw [if_neg hlangs] at hrun
      exact absurd hrun (by simp)
    rw [if_pos hlangs] at hrun
    by_cases hctxs : sc.contexts.length ≤ 1
    swap
    · rw [if_neg hctxs] at hrun
      exact absurd hrun (by simp)
    rw [if_pos hctxs] at hrun
    simp only [Option.bind_eq_bind] at hrun
    cases hmcp : case_info bmp sc.code with
    | none =>
      rw [hmcp] at hrun
      simp at hrun
    | some mcp =>
    rw [hmcp] at hrun
    simp only [Option.some_bind] at hrun
    by_cases ha1 : sc.code = mcp.lower ∨ sc.lower.length ≠ 1 ∨
        sc.code ≠ sc.lower.getD 0 0
    swap
    · rw [if_neg ha1] at hrun
      exact absurd hrun (by simp)
    rw [if_pos ha1] at hrun
    by_cases ha2 : sc.code = mcp.upper ∨ sc.upper.length ≠ 1 ∨
        sc.code ≠ sc.upper.getD 0 0
    swap
    · rw [if_neg ha2] at hrun
      exact absurd hrun (by simp)
    rw [if_pos ha2] at hrun
    obtain ⟨hP1, hP2, hP3, hP4, hP5, hP6⟩ := hP
    have hfinish : ∀ d2 : SpecialCasingData,
        special_casing_loop bmp rest d2 = some out →
        special_casing_data_bmp_only d2 →
        (∀ c ∈ sc :: rest, c.code ≤ MAX_BMP) ∧
          special_casing_data_bmp_only out := by
      intro d2 hrun2 hd2
      obtain ⟨hrest, hPout⟩ := ih d2 out hrun2 hbounds' hd2
      refine ⟨fun c hc => ?_, hPout⟩
      rcases List.mem_cons.mp hc with h | h
      · subst h; exact hcode
      · exact hrest c h
    cases hl0 : sc.languages.get? 0 with
    | none =>
      simp only [hl0] at hrun
      cases hc0 : sc.contexts.get? 0 with
      | none =>
        simp only [hc0] at hrun
        by_cases hsl : sc.lower.length ≠ 1 ∨ sc.lower.getD 0 0 ≠ mcp.lower <;>
          by_cases hsu : sc.upper.length ≠ 1 ∨ sc.upper.getD 0 0 ≠ mcp.upper <;>
            simp only [hsl, hsu, if_true, if_false, ite_true, ite_false] at hrun <;>
          refine hfinish _ hrun ⟨?_, ?_, hP3, hP4, hP5, hP6⟩
        · exact bmp_only_insert_flat id _ sc.code sc.lower hP1 hcode hlowerb
        · exact bmp_only_insert_flat id _ sc.code sc.upper hP2 hcode hupperb
        · exact bmp_only_insert_flat id _ sc.code sc.lower hP1 hcode hlowerb
        · exact hP2
        · exact hP1
        · exact bmp_only_insert_flat id _ sc.code sc.upper hP2 hcode hupperb
        · exact hP1
        · exact hP2
      | some context =>
        simp only [hc0] at hrun
        by_cases hsl : sc.lower.length ≠ 1 ∨ sc.lower.getD 0 0 ≠ mcp.lower <;>
          by_cases hsu : sc.upper.length ≠ 1 ∨ sc.upper.getD 0 0 ≠ mcp.upper <;>
            simp only [hsl, hsu, if_true, if_false, ite_true, ite_false] at hrun <;>
          refine hfinish _ hrun ⟨hP1, hP2, ?_, ?_, hP5, hP6⟩
        · exact bmp_only_insert_flat Prod.fst _ sc.code (sc.lower, context)
            hP3 hcode hlowerb
        · exact bmp_only_insert_flat Prod.fst _ sc.code (sc.upper, context)
            hP4 hcode hupperb
        · exact bmp_only_insert_flat Prod.fst _ sc.code (sc.lower, context)
            hP3 hcode hlowerb
        · exact hP4
        · exact hP3
        · exact bmp_only_insert_flat Prod.fst _ sc.code (sc.upper, context)
            hP4 hcode hupperb
        · exact hP3
        · exact hP4
    | some language =>
      simp only [hl0] at hrun
      by_cases hsl : sc.lower.length ≠ 1 ∨ sc.lower.getD 0 0 ≠ mcp.lower <;>
        by_cases hsu : sc.upper.length ≠ 1 ∨ sc.upper.getD 0 0 ≠ mcp.upper <;>
          simp only [hsl, hsu, if_true, if_false, ite_true, ite_false] at hrun <;>
        refine hfinish _ hrun ⟨hP1, hP2, hP3, hP4, ?_, ?_⟩
      · exact bmp_only_insert_lang _ language sc.code sc.lower _ hP5 hcode
          hlowerb
      · exact bmp_only_insert_lang _ language sc.code sc.upper _ hP6 hcode
          hupperb
      · exact bmp_only_insert_lang _ language sc.code sc.lower _ hP5 hcode
          hlowerb
      · exact hP6
      · exact hP5
      · exact bmp_only_insert_lang _ language sc.code sc.upper _ hP6 hcode
          hupperb
      · exact hP5
      · exact hP6

/-- C10: every code point appearing anywhere in the `SpecialCasingData`
produced by `process_special_casing` — every key of every bucket and
every code in every replacement sequence — is a BMP code point (first
conjunct); a record with a non-BMP key aborts generation (second
conjunct: the processing loop returns `none`); and a record with a
replacement code not representable in 16 bits in any of its sequence
fields — lower (field 1), title (field 2) or upper (field 3), all parsed
by the same `u16` hex path — aborts generation already in the reader
(third conjunct). -/
theorem special_casing_all_bmp (lines : List (List Char)) (bmp : BMPInfo) :
    (∀ cases2 data, special_casing_parse lines = some cases2 →
      process_special_casing bmp cases2 = some data →
      special_casing_data_bmp_only data) ∧
    (∀ cases2 sc, special_casing_parse lines = some cases2 → sc ∈ cases2 →
      MAX_BMP < sc.code → process_special_casing bmp cases2 = none) ∧
    (∀ l i f tok v, l ∈ lines → strip_comment l ≠ [] →
      i = 1 ∨ i = 2 ∨ i = 3 →
      (split_char ';' (strip_comment l)).get? i = some f →
      tok ∈ split_char ' ' (trim f) →
      from_str_radix16 U32_MAX tok = some v → 0xFFFF < v →
      special_casing_parse lines = none) := by
  have hinit : special_casing_data_bmp_only
      (SpecialCasingData.mk [] [] [] [] [] []) := by
    refine ⟨?_, ?_, ?_, ?_, ?_, ?_⟩ <;> intro p hp <;> simp at hp
  refine ⟨?_, ?_, ?_⟩
  · intro cases2 data hparse hproc
    have hbounds := special_casing_parse_bounds lines cases2 hparse
    exact (special_casing_loop_spec bmp cases2 _ data hproc
      (fun sc hsc => hbounds sc hsc) hinit).2
  · intro cases2 sc hparse hsc hbig
    have hbounds := special_casing_parse_bounds lines cases2 hparse
    cases hproc : process_special_casing bmp cases2 with
    | none => rfl
    | some data =>
      have := (special_casing_loop_spec bmp cases2 _ data hproc
        (fun c hc => hbounds c hc) hinit).1 sc hsc
      omega
  · intro l i f tok v hl hnempty hi hf htok hv hbig
    have htrimne : trim f ≠ [] := by
      intro hte
      rw [hte] at htok
      rw [show split_char ' ' ([] : List Char) = [[]] from rfl] at htok
      simp at htok
      subst htok
      rw [show from_str_radix16 U32_MAX ([] : List Char) = none
        from rfl] at hv
      exact Option.noConfusion hv
    have hpcf : parse_codes_field f = none := by
      unfold parse_codes_field
      rw [if_neg htrimne]
      exact map_collect_none_of_mem _ _ tok htok
        (from_str_radix16_overflow U32_MAX 0xFFFF tok v hv hbig)
    induction lines with
    | nil => simp at hl
    | cons l0 rest ih =>
      rcases List.mem_cons.mp hl with heq | hmem
      · subst heq
        rw [special_casing_parse, if_neg hnempty]
        simp only [Option.bind_eq_bind]
        cases hsplit0 : (split_char ';' (strip_comment l)).get? 0 with
        | none => rfl
        | some cf =>
          simp only [Option.some_bind]
          cases hcode : from_str_radix16 U32_MAX (trim cf) with
          | none => rfl
          | some code =>
            simp only [Option.some_bind]
            rcases hi with rfl | rfl | rfl
            · rw [hf]
              simp only [Option.some_bind]
              rw [hpcf]
              rfl
            · cases h1 : (split_char ';' (strip_comment l)).get? 1 with
              | none => rfl
              | some lf =>
                simp only [Option.some_bind]
                cases h2 : parse_codes_field lf with
                | none => rfl
                | some lower =>
                  simp only [Option.some_bind]
                  rw [hf]
                  simp only [Option.some_bind]
                  rw [hpcf]
                  rfl
            · cases h1 : (split_char ';' (strip_comment l)).get? 1 with
              | none => rfl
              | some lf =>
                simp only [Option.some_bind]
                cases h2 : parse_codes_field lf with
                | none => rfl
                | some lower =>
                  simp only [Option.some_bind]
                  cases h3 : (split_char ';' (strip_comment l)).get? 2 with
                  | none => rfl
                  | some tf =>
                    simp only [Option.some_bind]
                    cases h4 : parse_codes_field tf with
                    | none => rfl
                    | some ti =>
                      simp only [Option.some_bind]
                      rw [hf]
                      simp only [Option.some_bind]
                      rw [hpcf]
                      rfl
      · exact special_casing_parse_cons_none l0 rest (ih hmem)

/-- Witness for C10: a BMP record with a two-code lowercase expansion is
accepted and its data is BMP-only; a record keyed at U+10000 makes the
processing loop abort; and a record whose lower, title or upper field
holds the five-digit code 10000 makes the reader abort. -/
theorem special_casing_all_bmp_witness :
    special_casing_data_bmp_only
      (SpecialCasingData.mk [(0x130, [0x69, 0x307])] [] [] [] [] []) ∧
    process_special_casing
      (BMPInfo.mk [CharacterInfo.all_zeroes] (List.replicate 0x131 0))
      [SpecialCase.mk 0x10000 [] [] [] []] = none ∧
    special_casing_parse ["0041; 10000; 0041; 0041; # bad".toList] = none ∧
    special_casing_parse ["0041; 0061; 10000; 0041; # bad".toList] = none ∧
    special_casing_parse ["0041; 0061; 0041; 10000; # bad".toList] = none := by
  refine ⟨?_, ?_, ?_, ?_, ?_⟩
  · exact (special_casing_all_bmp
      ["0130; 0069 0307; 0130; 0130; # withdot".toList]
      (BMPInfo.mk [CharacterInfo.all_zeroes] (List.replicate 0x131 0))).1
      [SpecialCase.mk 0x130 [0x69, 0x307] [0x130] [] []]
      (SpecialCasingData.mk [(0x130, [0x69, 0x307])] [] [] [] [] [])
      (by decide) (by decide)
  · exact (special_casing_all_bmp ["10000; ; ; ; ; # nonbmp".toList]
      (BMPInfo.mk [CharacterInfo.all_zeroes] (List.replicate 0x131 0))).2.1
      [SpecialCase.mk 0x10000 [] [] [] []]
      (SpecialCase.mk 0x10000 [] [] [] []) (by decide) (by decide) (by decide)
  · exact (special_casing_all_bmp ["0041; 10000; 0041; 0041; # bad".toList]
      (BMPInfo.mk [CharacterInfo.all_zeroes] (List.replicate 0x131 0))).2.2
      "0041; 10000; 0041; 0041; # bad".toList 1 " 10000".toList
      "10000".toList 0x10000 (by decide) (by decide) (by decide) (by decide)
      (by decide) (by decide) (by decide)
  · exact (special_casing_all_bmp ["0041; 0061; 10000; 0041; # bad".toList]
      (BMPInfo.mk [CharacterInfo.all_zeroes] (List.replicate 0x131 0))).2.2
      "0041; 0061; 10000; 0041; # bad".toList 2 " 10000".toList
      "10000".toList 0x10000 (by decide) (by decide) (by decide) (by decide)
      (by decide) (by decide) (by decide)
  · exact (special_casing_all_bmp ["0041; 0061; 0041; 10000; # bad".toList]
      (BMPInfo.mk [CharacterInfo.all_zeroes] (List.replicate 0x131 0))).2.2
      "0041; 0061; 0041; 10000; # bad".toList 3 " 10000".toList
      "10000".toList 0x10000 (by decide) (by decide) (by decide) (by decide)
      (by decide) (by decide) (by decide)

end UnicodeInfo
